import Mathlib

/-!
Verification of the framez/fraims byte-stream framing engine: a shallow
embedding of the read driver state machine (`FramedCore::maybe_next`), the
built-in codecs (raw bytes, lines, arbitrary delimiter), the write path
(`send`), and the demo binary packet codec with CRC-32 checksums, together
with proofs about framing completeness, invariant preservation, round-trips,
error handling, and checksum detection.

Bytes are modelled as `Nat` values (the u8 range is irrelevant for the
control flow being verified, except where explicitly hypothesised).
-/

set_option maxRecDepth 40000

namespace Framez

abbrev Byte := Nat

/-- Result of a decoder call, mirroring `Result<Option<(Item, usize)>, E>`
from `framez/src/decode.rs`. -/
inductive DecodeRes (F E : Type) where
  | ok : Option (F × Nat) → DecodeRes F E
  | err : E → DecodeRes F E
deriving DecidableEq

/-- A decoder, mirroring the `Decoder` trait of `framez/src/decode.rs`.
`decode cs src` returns the updated decoder state, the (possibly mutated)
contents of the `&mut [u8]` slice it was handed, and the decode result.
`decodeEof` mirrors `decode_eof`. -/
structure Codec (σ F E : Type) where
  decode : σ → List Byte → σ × List Byte × DecodeRes F E
  decodeEof : σ → List Byte → σ × List Byte × DecodeRes F E

/-- The read-side driver state, from `ReadState` in `framez/src/state.rs`. -/
structure ReadState where
  index : Nat
  eof : Bool
  is_framable : Bool
  shift : Bool
  total_consumed : Nat
  buffer : List Byte
deriving DecidableEq

/-- Fresh state bound to a buffer, from `ReadState::new`. -/
def ReadState.new (buffer : List Byte) : ReadState :=
  { index := 0, eof := false, is_framable := false, shift := false
    total_consumed := 0, buffer := buffer }

/-- The slice `buffer[total_consumed..index]` handed to the decoder. -/
def ReadState.pending (s : ReadState) : List Byte :=
  (s.buffer.drop s.total_consumed).take (s.index - s.total_consumed)

/-- Overwrite `buffer[i..i + bs.length]` with `bs`: the effect of
`read(&mut state.buffer[state.index..])` delivering `bs`. -/
def writeAt (buffer : List Byte) (i : Nat) (bs : List Byte) : List Byte :=
  buffer.take i ++ bs ++ buffer.drop (i + bs.length)

/-- The effect of `buffer.copy_within(total_consumed..index, 0)`: the first
`index - total_consumed` bytes become `buffer[total_consumed..index]`, the
rest of the buffer is unchanged. -/
def copyWithin (buffer : List Byte) (tc idx : Nat) : List Byte :=
  (buffer.drop tc).take (idx - tc) ++ buffer.drop (idx - tc)

/-- Write the decoder-mutated slice contents back into
`buffer[tc..idx]` (a `&mut` reborrow in Rust; `newSrc` has length
`idx - tc` for any real decoder, since slices cannot change length). -/
def writeBack (buffer : List Byte) (tc idx : Nat) (newSrc : List Byte) : List Byte :=
  buffer.take tc ++ newSrc ++ buffer.drop idx

/-- Transport model: the incoming byte stream as a list of chunks. A read
with `space` bytes of room delivers a nonempty prefix of the first chunk
(all of it when it fits) and returns `[]` exactly when the stream is
exhausted, matching the `embedded_io_async::Read` contract where reading
`0` bytes means end-of-stream. -/
def transportRead (chunks : List (List Byte)) (space : Nat) :
    List Byte × List (List Byte) :=
  match chunks with
  | [] => ([], [])
  | c :: rest =>
    if c.length ≤ space then (c, rest) else (c.take space, c.drop space :: rest)

/-- A read driver plus its transport: decoder state, `ReadState`, and the
not-yet-delivered chunks of the byte source. -/
structure Machine (σ : Type) where
  codec : σ
  rs : ReadState
  chunks : List (List Byte)
deriving DecidableEq

/-- Read-side error kinds, from `ReadError` in `framez/src/error.rs`.
The transport in this model does not fail, so `ioErr` is never produced
by the embedded step, but the constructor is kept for fidelity. -/
inductive ReadErrorK (E : Type) where
  | ioErr
  | decodeErr (e : E)
  | bufferTooSmall
  | bytesRemainingOnStream
deriving DecidableEq

/-- The four observable outcomes of one `maybe_next` invocation:
`Some(Ok(None))`, `Some(Ok(Some(item)))`, `Some(Err(e))`, `None`. -/
inductive StepRes (F E : Type) where
  | progress
  | frame (f : F)
  | fail (e : ReadErrorK E)
  | terminal
deriving DecidableEq

/-- One step of the read driver, translated from
`FramedCore::maybe_next` in `framez/src/framed_core.rs` (lines 95-239).
Branch order is part of the contract: shift, then framable (EOF or not),
then buffer-full check, then read. -/
def maybeNext {σ F E : Type} (cod : Codec σ F E) (m : Machine σ) :
    Machine σ × StepRes F E :=
  let s := m.rs
  if s.shift then
    ({ m with rs :=
        { s with buffer := copyWithin s.buffer s.total_consumed s.index
                 index := s.index - s.total_consumed
                 total_consumed := 0
                 shift := false } }, .progress)
  else if s.is_framable then
    if s.eof then
      match cod.decodeEof m.codec s.pending with
      | (cs, newSrc, .ok (some (item, size))) =>
        ({ m with codec := cs, rs :=
            { s with buffer := writeBack s.buffer s.total_consumed s.index newSrc
                     total_consumed := s.total_consumed + size } }, .frame item)
      | (cs, newSrc, .ok none) =>
        let rs' : ReadState :=
          { s with buffer := writeBack s.buffer s.total_consumed s.index newSrc
                   is_framable := false }
        if s.index ≠ s.total_consumed then
          ({ m with codec := cs, rs := rs' }, .fail .bytesRemainingOnStream)
        else
          ({ m with codec := cs, rs := rs' }, .terminal)
      | (cs, newSrc, .err e) =>
        ({ m with codec := cs, rs :=
            { s with buffer := writeBack s.buffer s.total_consumed s.index newSrc } },
         .fail (.decodeErr e))
    else
      let bufLen := s.buffer.length
      match cod.decode m.codec s.pending with
      | (cs, newSrc, .ok (some (item, size))) =>
        ({ m with codec := cs, rs :=
            { s with buffer := writeBack s.buffer s.total_consumed s.index newSrc
                     total_consumed := s.total_consumed + size } }, .frame item)
      | (cs, newSrc, .ok none) =>
        ({ m with codec := cs, rs :=
            { s with buffer := writeBack s.buffer s.total_consumed s.index newSrc
                     shift := decide (s.index ≥ bufLen)
                     is_framable := false } }, .progress)
      | (cs, newSrc, .err e) =>
        ({ m with codec := cs, rs :=
            { s with buffer := writeBack s.buffer s.total_consumed s.index newSrc } },
         .fail (.decodeErr e))
  else if s.index ≥ s.buffer.length then
    (m, .fail .bufferTooSmall)
  else
    let (bs, chunks') := transportRead m.chunks (s.buffer.length - s.index)
    if bs.isEmpty then
      ({ m with chunks := chunks', rs := { s with eof := true, is_framable := true } },
       .progress)
    else
      ({ m with chunks := chunks', rs :=
          { s with buffer := writeAt s.buffer s.index bs
                   index := s.index + bs.length
                   is_framable := true } }, .progress)

/-- One step of the fraims read driver, translated from
`FramedImpl::maybe_next` in `fraims/src/framed_impl.rs` (lines 34-182).
Identical to `maybeNext` except that the `buffer-early-shift` build
option is compiled in: with `earlyShift` the `Ok(None)` decode branch
sets `shift` to `total_consumed > 0` instead of `index >= buf_len`. -/
def fraimsMaybeNext {σ F E : Type} (earlyShift : Bool) (cod : Codec σ F E)
    (m : Machine σ) : Machine σ × StepRes F E :=
  let s := m.rs
  if s.shift then
    ({ m with rs :=
        { s with buffer := copyWithin s.buffer s.total_consumed s.index
                 index := s.index - s.total_consumed
                 total_consumed := 0
                 shift := false } }, .progress)
  else if s.is_framable then
    if s.eof then
      match cod.decodeEof m.codec s.pending with
      | (cs, newSrc, .ok (some (item, size))) =>
        ({ m with codec := cs, rs :=
            { s with buffer := writeBack s.buffer s.total_consumed s.index newSrc
                     total_consumed := s.total_consumed + size } }, .frame item)
      | (cs, newSrc, .ok none) =>
        let rs' : ReadState :=
          { s with buffer := writeBack s.buffer s.total_consumed s.index newSrc
                   is_framable := false }
        if s.index ≠ s.total_consumed then
          ({ m with codec := cs, rs := rs' }, .fail .bytesRemainingOnStream)
        else
          ({ m with codec := cs, rs := rs' }, .terminal)
      | (cs, newSrc, .err e) =>
        ({ m with codec := cs, rs :=
            { s with buffer := writeBack s.buffer s.total_consumed s.index newSrc } },
         .fail (.decodeErr e))
    else
      let bufLen := s.buffer.length
      match cod.decode m.codec s.pending with
      | (cs, newSrc, .ok (some (item, size))) =>
        ({ m with codec := cs, rs :=
            { s with buffer := writeBack s.buffer s.total_consumed s.index newSrc
                     total_consumed := s.total_consumed + size } }, .frame item)
      | (cs, newSrc, .ok none) =>
        ({ m with codec := cs, rs :=
            { s with buffer := writeBack s.buffer s.total_consumed s.index newSrc
                     shift := if earlyShift then decide (s.total_consumed > 0)
                              else decide (s.index ≥ bufLen)
                     is_framable := false } }, .progress)
      | (cs, newSrc, .err e) =>
        ({ m with codec := cs, rs :=
            { s with buffer := writeBack s.buffer s.total_consumed s.index newSrc } },
         .fail (.decodeErr e))
  else if s.index ≥ s.buffer.length then
    (m, .fail .bufferTooSmall)
  else
    let (bs, chunks') := transportRead m.chunks (s.buffer.length - s.index)
    if bs.isEmpty then
      ({ m with chunks := chunks', rs := { s with eof := true, is_framable := true } },
       .progress)
    else
      ({ m with chunks := chunks', rs :=
          { s with buffer := writeAt s.buffer s.index bs
                   index := s.index + bs.length
                   is_framable := true } }, .progress)

/-! ## Built-in codecs -/

/-- Raw bytes decode, from `Bytes::decode` in `fraims/src/codec/bytes.rs`
(lines 29-35): the whole slice is the frame, the consumed size is its
length. The codec is stateless. -/
def bytesDecodeFn (src : List Byte) : DecodeRes (List Byte) Empty :=
  .ok (some (src, src.length))

/-- The `Bytes` codec. `decode_eof` is not overridden, so it is the trait
default, which delegates to `decode` (`framez/src/decode.rs` lines 25-30). -/
def bytesCodec : Codec Unit (List Byte) Empty :=
  { decode := fun _ src => ((), src, bytesDecodeFn src)
    decodeEof := fun _ src => ((), src, bytesDecodeFn src) }

/-- The scanning loop of `Lines::decode` from `fraims/src/codec/lines.rs`
(lines 39-58), with the `while self.seen < src.len()` loop rendered as
structural recursion over the not-yet-scanned suffix of `src` (the first
argument is `src.drop seen`): walk `seen` forward looking for `\n` (10);
on a hit the frame is `src[..seen]` with one trailing `\r` (13) stripped,
the consumed size is `seen + 1`, and `seen` resets to 0. Returns the
updated `seen` cursor together with the optional frame. -/
def linesLoopGo (src : List Byte) : List Byte → Nat → Nat × Option (List Byte × Nat)
  | [], seen => (seen, none)
  | b :: rest, seen =>
    if b = 10 then
      let lineBytes :=
        if (src.take seen).getLast? = some 13 then src.take (seen - 1)
        else src.take seen
      (0, some (lineBytes, seen + 1))
    else
      linesLoopGo src rest (seen + 1)

/-- The body of `Lines::decode`: scan from the stored `seen` cursor. -/
def linesDecodeLoop (src : List Byte) (seen : Nat) :
    Nat × Option (List Byte × Nat) :=
  linesLoopGo src (src.drop seen) seen

/-- The `Lines` codec; its state is the `seen` cursor. `decode_eof` is the
trait default, delegating to `decode`. -/
def linesCodec : Codec Nat (List Byte) Empty :=
  { decode := fun seen src =>
      let r := linesDecodeLoop src seen
      (r.1, src, .ok r.2)
    decodeEof := fun seen src =>
      let r := linesDecodeLoop src seen
      (r.1, src, .ok r.2) }

/-- Result of `Delimiter::decode`, which can panic: the Rust code computes
`src[self.seen + 1 - self.delimiter.len()..self.seen + 1]`, whose usize
subtraction underflows (debug: overflow panic; release: wrapped start index
out of slice range, also a panic) whenever `seen + 1 < D`, and for the
empty delimiter computes `src[..self.seen + 1]`, which is out of bounds
when `seen + 1 > src.len()`. -/
inductive DelimOut where
  | panic
  | ok : Option (List Byte × Nat) → DelimOut
deriving DecidableEq

/-- The scanning loop of `Delimiter::decode` from
`framez/src/codec/delimiter.rs` (lines 57-77): walk `seen` forward; where
`src[seen]` equals the delimiter's last byte, compare the D bytes ending
at `seen` against the delimiter; on a match the frame is
`src[..seen + 1 - D]`, the consumed size is `seen + 1`, and `seen` resets
to 0. Positions with `seen + 1 < D` make the Rust slice expression panic.
Returns the updated `seen` cursor with the outcome. -/
def delimLoopGo (delim : List Byte) (lastByte : Byte) (src : List Byte) :
    List Byte → Nat → Nat × DelimOut
  | [], seen => (seen, .ok none)
  | b :: rest, seen =>
    if b = lastByte then
      if seen + 1 < delim.length then
        (seen, .panic)
      else if (src.drop (seen + 1 - delim.length)).take delim.length = delim then
        (0, .ok (some (src.take (seen + 1 - delim.length), seen + 1)))
      else
        delimLoopGo delim lastByte src rest (seen + 1)
    else
      delimLoopGo delim lastByte src rest (seen + 1)

/-- The scan of `Delimiter::decode` starting from the stored `seen`
cursor; the `while self.seen < src.len()` loop of the Rust code is
rendered as structural recursion over the unscanned suffix `src.drop seen`. -/
def delimLoop (delim : List Byte) (lastByte : Byte) (src : List Byte)
    (seen : Nat) : Nat × DelimOut :=
  delimLoopGo delim lastByte src (src.drop seen) seen

/-- The body of `Delimiter::decode` from `framez/src/codec/delimiter.rs`
(lines 45-79): return `Ok(None)` when `src.len() < D`; with an empty
delimiter return `src[..seen + 1]` directly (no cursor reset); otherwise
run the scan loop. -/
def delimDecode (delim : List Byte) (seen : Nat) (src : List Byte) :
    Nat × DelimOut :=
  if src.length < delim.length then
    (seen, .ok none)
  else
    match delim.getLast? with
    | none =>
      if seen + 1 ≤ src.length then
        (seen, .ok (some (src.take (seen + 1), seen + 1)))
      else
        (seen, .panic)
    | some lastByte => delimLoop delim lastByte src seen

/-! ## Encoders -/

/-- Codec-local encode error kinds (`BufferTooSmall` for the built-ins). -/
inductive EncodeErrK where
  | bufferTooSmall
deriving DecidableEq

/-- The `Lines` encoder from `fraims/src/codec/lines.rs` (lines 82-93):
write the item followed by `\r\n` into `dst`, returning the updated `dst`
and the written size, or `BufferTooSmall`. -/
def linesEncode (item dst : List Byte) : Except EncodeErrK (List Byte × Nat) :=
  let size := item.length + 2
  if dst.length < size then .error .bufferTooSmall
  else .ok (item ++ [13, 10] ++ dst.drop size, size)

/-- The `Bytes` encoder from `fraims/src/codec/bytes.rs` (lines 58-68). -/
def bytesEncode (item dst : List Byte) : Except EncodeErrK (List Byte × Nat) :=
  let size := item.length
  if dst.length < size then .error .bufferTooSmall
  else .ok (item ++ dst.drop size, size)

/-- The `Delimiter` encoder from `framez/src/codec/delimiter.rs`
(lines 103-114): write the item followed by the delimiter. -/
def delimEncode (delim item dst : List Byte) :
    Except EncodeErrK (List Byte × Nat) :=
  let size := item.length + delim.length
  if dst.length < size then .error .bufferTooSmall
  else .ok (item ++ delim ++ dst.drop size, size)

/-! ## Write path -/

/-- Observable transport events of one `send`. -/
inductive WEvent where
  | wrote (bs : List Byte)
  | flushed
deriving DecidableEq

/-- Write-side error kinds, from `WriteError` in `framez/src/error.rs`. -/
inductive WriteErrK (Ei Ee : Type) where
  | ioErr (e : Ei)
  | encodeFail (e : Ee)
deriving DecidableEq

/-- The write driver, translated from `send` in `framez/src/functions.rs`
(lines 230-270, identical to `FramedCore::send`): encode into the write
buffer (on failure return `Err(Encode(e))` without touching the
transport), then `write_all` the first `size` bytes, then `flush`, mapping
transport failures to `Err(IO(e))`. The transport is modelled by the
`writeAll` and `flush` oracles plus the produced event log. -/
def send {Ei Ee : Type} (encode : List Byte → Except Ee (List Byte × Nat))
    (writeAll : List Byte → Except Ei Unit) (flush : Unit → Except Ei Unit)
    (wbuf : List Byte) : List WEvent × Except (WriteErrK Ei Ee) Unit :=
  match encode wbuf with
  | .error e => ([], .error (.encodeFail e))
  | .ok (buf', size) =>
    match writeAll (buf'.take size) with
    | .error e => ([], .error (.ioErr e))
    | .ok _ =>
      match flush () with
      | .error e => ([.wrote (buf'.take size)], .error (.ioErr e))
      | .ok _ => ([.wrote (buf'.take size), .flushed], .ok ())

/-! ## Driving the read loop -/

/-- Outcome of running the read loop to completion: the frames yielded in
order followed by clean termination (`None`) or by a terminal error, or
`more` when the supplied fuel ran out first. -/
inductive RunOut (F E : Type) where
  | done (fs : List F)
  | failed (fs : List F) (e : ReadErrorK E)
  | more
deriving DecidableEq

/-- Prepend a frame to a run outcome. -/
def RunOut.cons {F E : Type} (f : F) : RunOut F E → RunOut F E
  | .done fs => .done (f :: fs)
  | .failed fs e => .failed (f :: fs) e
  | .more => .more

/-- Invoke `maybeNext` repeatedly (the `next` loop of
`framez/src/framed_core.rs` lines 259-277), collecting frames until the
terminal `None` outcome or an error, with explicit fuel. -/
def run {σ F E : Type} (cod : Codec σ F E) : Nat → Machine σ → RunOut F E
  | 0, _ => .more
  | fuel + 1, m =>
    match maybeNext cod m with
    | (m', .progress) => run cod fuel m'
    | (m', .frame f) => (run cod fuel m').cons f
    | (_, .fail e) => .failed [] e
    | (_, .terminal) => .done []

/-! ## CRC-32 and the demo packet codec

The demo packet codec (`fraims-demo` / `framez-demo`) frames packets as an
8-byte big-endian header (`packet_length : u16`, `payload_type : u16`,
`checksum : u32`) followed by payload bytes, with the checksum a CRC-32
over the whole packet computed with the checksum field zeroed.
-/

/-- One feedback round of the reflected CRC-32 (IEEE) computation.
Modelled from the spec: `Header::calculate_checksum` delegates to the
external `crc32fast` crate, which the spec pins as "big-endian CRC-32,
computed with this field zeroed", i.e. the standard reflected CRC-32 with
polynomial 0xEDB88320, initial value and final xor 0xFFFFFFFF. -/
def crcRound (s : Nat) : Nat :=
  if s % 2 = 1 then (s / 2) ^^^ 0xEDB88320 else s / 2

/-- Fold one byte into the CRC-32 state: xor it in at the low bits, then
run eight feedback rounds. -/
def crcByte (s b : Nat) : Nat := crcRound^[8] (s ^^^ b)

/-- Modelled from the spec: CRC-32 of a byte sequence, standing in for the
external `crc32fast::Hasher` used by `Header::calculate_checksum` in
`fraims-demo/src/header.rs` (lines 29-35). -/
def crc32 (data : List Byte) : Nat :=
  (data.foldl crcByte 0xFFFFFFFF) ^^^ 0xFFFFFFFF

/-- Big-endian 16-bit encoding (`zerocopy::big_endian::U16`). -/
def be16 (n : Nat) : List Byte := [n / 256 % 256, n % 256]

/-- Big-endian 32-bit encoding (`zerocopy::big_endian::U32`). -/
def be32 (n : Nat) : List Byte :=
  [n / 2 ^ 24 % 256, n / 2 ^ 16 % 256, n / 2 ^ 8 % 256, n % 256]

/-- Parse `packet_length` from a packet prefix (`Header::packet_length`,
big-endian bytes 0-1). -/
def headerPacketLength (src : List Byte) : Nat :=
  src.getD 0 0 * 256 + src.getD 1 0

/-- Parse `payload_type` from a packet prefix (`Header::raw_payload_type`,
big-endian bytes 2-3). -/
def headerPayloadType (src : List Byte) : Nat :=
  src.getD 2 0 * 256 + src.getD 3 0

/-- Parse `checksum` from a packet prefix (`Header::checksum`, big-endian
bytes 4-7). -/
def headerChecksum (src : List Byte) : Nat :=
  ((src.getD 4 0 * 256 + src.getD 5 0) * 256 + src.getD 6 0) * 256 + src.getD 7 0

/-- Zero the checksum field in place (`Header::clear_checksum` acting on
the packet prefix: bytes 4-7 become 0). -/
def zeroChecksum (src : List Byte) : List Byte :=
  src.take 4 ++ [0, 0, 0, 0] ++ src.drop 8

/-- A decoded packet at the raw layer: the raw payload type and the
payload bytes. The JSON payload (de)serialization delegated to the
external `serde_json_core` crate is out of scope; the spec says "any
deterministic byte encoding works", so payloads are opaque byte lists. -/
abbrev RawFrame := Nat × List Byte

/-- Decode one packet from the front of `src`, translated from
`RawPacket::maybe_raw_packet_from_prefix` in `fraims-demo/src/raw_packet.rs`
(lines 61-90) composed with `Packet::maybe_packet_from_prefix`
(`framez-demo/src/packet.rs` lines 43-65): fewer than 8 bytes → `Ok(None)`;
compute `payload_length = packet_length - 8` (a usize subtraction, wrapping
modulo 2^64 in release builds when `packet_length < 8`); too few remaining
bytes → `Ok(None)`; copy the received checksum aside, zero the field,
recompute CRC-32 over `[0..packet_length]`, mismatch → `Err(Checksum)`;
otherwise return the frame and the consumed size. The consumed size is
`packet_length` (spec §4.5 "Return (Packet, packet_length)"; the code
reports `8 +` the payload size measured by the deserializer, which equals
`packet_length` for encoder-produced packets). -/
def packetDecode (src : List Byte) : Except Unit (Option (RawFrame × Nat)) :=
  if src.length < 8 then .ok none
  else
    let pl := headerPacketLength src
    let payloadLen := (pl + 2 ^ 64 - 8) % 2 ^ 64
    if src.length - 8 < payloadLen then .ok none
    else
      let received := headerChecksum src
      let zeroed := zeroChecksum src
      let calculated := crc32 (zeroed.take pl)
      if received ≠ calculated then .error ()
      else .ok (some ((headerPayloadType src, (zeroed.drop 8).take payloadLen), pl))

/-- Encode one packet, translated from `RawPacket::write_to` in
`fraims-demo/src/raw_packet.rs` (lines 39-58) with
`Header::make_ready_for_checksum`: header with `packet_length = 8 +
payload length`, the payload type, and a zeroed checksum field, followed
by the payload; then the CRC-32 of that block is written back into the
checksum field. The payload bytes stand for the serialized payload
(opaque; see `RawFrame`). -/
def encPacket (payloadType : Nat) (payload : List Byte) : List Byte :=
  let pl := 8 + payload.length
  let zeroed := be16 pl ++ be16 payloadType ++ [0, 0, 0, 0] ++ payload
  be16 pl ++ be16 payloadType ++ be32 (crc32 zeroed) ++ payload

/-- Terminal condition of decoding a whole stream of packets. -/
inductive StreamEnd where
  | clean
  | residual
  | checksum
deriving DecidableEq

/-- Decode a byte stream packet by packet (the read driver specialised to
the packet codec over an in-memory stream): collect frames until the codec
reports `Ok(None)` — clean end on an empty remainder, residual bytes
otherwise (the driver then yields `BytesRemainingOnStream`) — or until the
first error, which ends the stream (the sequence adapters are terminal on
the first error). `fuel` bounds the number of packets. -/
def decodePacketsF : Nat → List Byte → List RawFrame × StreamEnd
  | 0, _ => ([], .residual)
  | fuel + 1, src =>
    match packetDecode src with
    | .error _ => ([], .checksum)
    | .ok none => ([], if src.isEmpty then .clean else .residual)
    | .ok (some (f, n)) =>
      let r := decodePacketsF fuel (src.drop n)
      (f :: r.1, r.2)

/-- Flip bit `k` of the byte at position `i`. -/
def flipAt (l : List Byte) (i k : Nat) : List Byte :=
  l.set i (l.getD i 0 ^^^ 2 ^ k)

/-- A valid packet at the raw layer: payload type in u16 range, total
packet length in u16 range, payload bytes in u8 range. -/
def ValidPacket (p : RawFrame) : Prop :=
  p.1 < 2 ^ 16 ∧ 8 + p.2.length < 2 ^ 16 ∧ ∀ b ∈ p.2, b < 256

/-- The byte stream formed by encoding a sequence of packets. -/
def encPackets (ps : List RawFrame) : List Byte :=
  (ps.map fun p => encPacket p.1 p.2).flatten

/-! ## Invariants and specification-side definitions -/

/-- Invariant I1 of the spec (§3): `total_consumed ≤ index ≤ buffer.len()`. -/
def Inv (rs : ReadState) : Prop :=
  rs.total_consumed ≤ rs.index ∧ rs.index ≤ rs.buffer.length

/-- Well-behavedness of one decoder response, as hypothesised by the
invariant-preservation property: the reported consumed size is at most
the length of the slice handed to the decoder, and the slice contents it
hands back have the slice's length (a Rust `&mut [u8]` cannot change
length). -/
def DecOk {σ F E : Type} (out : σ × List Byte × DecodeRes F E)
    (src : List Byte) : Prop :=
  out.2.1.length = src.length ∧
    ∀ f n, out.2.2 = DecodeRes.ok (some (f, n)) → n ≤ src.length

/-- The byte sequence written for one item by the `Lines` encoder:
the item followed by `\r\n`. -/
def encLine (x : List Byte) : List Byte := x ++ [13, 10]

/-- Expected outcome of draining a stream of encoded lines: the items in
order, then clean termination, or `BytesRemainingOnStream` when a
nonempty trailing partial encoding is present. -/
def expectedOut (todo : List (List Byte)) (residue : List Byte) :
    RunOut (List Byte) Empty :=
  if residue.isEmpty then .done todo else .failed todo .bytesRemainingOnStream

/-- Simulation invariant tying a `Lines` machine to the frames `todo` it
still has to deliver and the trailing `residue` of the stream. -/
structure LinesInv (L : Nat) (residue : List Byte) (todo : List (List Byte))
    (m : Machine Nat) : Prop where
  hbuf : m.rs.buffer.length = L
  htci : m.rs.total_consumed ≤ m.rs.index
  hiL : m.rs.index ≤ L
  hstream : m.rs.pending ++ m.chunks.flatten = (todo.map encLine).flatten ++ residue
  hchunks : ∀ c ∈ m.chunks, c ≠ []
  hseen : m.codec ≤ m.rs.pending.length
  hseen10 : 10 ∉ m.rs.pending.take m.codec
  hnoframe : m.rs.is_framable = false → m.codec = m.rs.pending.length ∧ 10 ∉ m.rs.pending
  heof : m.rs.eof = true → m.chunks = [] ∧ m.rs.is_framable = true
  hroom : m.rs.is_framable = false → m.rs.shift = false →
    m.rs.total_consumed = 0 ∨ m.rs.index < L

/-- Termination measure for the `Lines` read loop: undelivered stream
bytes weigh 6, unconsumed buffer bytes weigh 3, and the `is_framable`,
`shift` and (unset) `eof` flags pay for the bookkeeping steps between two
byte-consuming steps. -/
def linesMeasure (m : Machine Nat) : Nat :=
  6 * m.chunks.flatten.length + 3 * m.rs.pending.length +
    (if m.rs.is_framable then 2 else 0) + (if m.rs.shift then 1 else 0) +
    (if m.rs.eof then 0 else 4)

/-- A full-delimiter occurrence ending at position `q` of `src`
(the condition the spec's walk checks at a candidate position). -/
def isMatchEnd (delim src : List Byte) (q : Nat) : Bool :=
  decide (delim.length ≤ q + 1) &&
    decide ((src.drop (q + 1 - delim.length)).take delim.length = delim)

/-- Walk forward over the unscanned suffix of `src` (first list argument,
`src.drop seen`) and return the first position at which a full delimiter
occurrence ends. Written from the spec's words for `Delimiter::decode`
(§4.2), not from the code. -/
def delimSpecScanGo (delim src : List Byte) : List Byte → Nat → Option Nat
  | [], _ => none
  | _ :: rest, q => if isMatchEnd delim src q then some q else delimSpecScanGo delim src rest (q + 1)

/-- First full-delimiter occurrence at or after the stored cursor.
Specification-side definition. -/
def delimSpecScan (delim src : List Byte) (seen : Nat) : Option Nat :=
  delimSpecScanGo delim src (src.drop seen) seen

/-- Specification-side description of `Delimiter::decode`, written from
the spec's words (§4.2): `Ok(None)` when `src.len() < D`; with `D = 0`
the frame is `src[..seen + 1]` with consumed size `seen + 1`; otherwise
the walk finds the first position where the D bytes ending there equal
the delimiter, the frame is `src[..seen + 1 - D]`, the consumed size is
`seen + 1`, and the cursor resets to 0; with no match the cursor has
walked to the end of `src` and the result is `Ok(None)`. -/
def delimDecodeSpec (delim : List Byte) (seen : Nat) (src : List Byte) :
    Nat × DelimOut :=
  if src.length < delim.length then
    (seen, .ok none)
  else
    match delim.getLast? with
    | none => (seen, .ok (some (src.take (seen + 1), seen + 1)))
    | some _ =>
      match delimSpecScan delim src seen with
      | some q => (0, .ok (some (src.take (q + 1 - delim.length), q + 1)))
      | none => (src.length, .ok none)

/-- A decoder that always answers `Ok(None)` and leaves its input alone;
used to instantiate driver-level statements at concrete inputs. -/
def nullCodec : Codec Unit Unit Unit :=
  { decode := fun _ src => ((), src, .ok none)
    decodeEof := fun _ src => ((), src, .ok none) }

/-! ## Basic lemmas about the buffer operations and the step -/

theorem copyWithin_length {buf : List Byte} {tc idx : Nat} (h1 : tc ≤ idx)
    (h2 : idx ≤ buf.length) : (copyWithin buf tc idx).length = buf.length := by
  simp [copyWithin]
  omega

theorem writeBack_length {buf ns : List Byte} {tc idx : Nat} (h1 : tc ≤ idx)
    (h2 : idx ≤ buf.length) (h3 : ns.length = idx - tc) :
    (writeBack buf tc idx ns).length = buf.length := by
  simp [writeBack]
  omega

theorem writeAt_length {buf bs : List Byte} {i : Nat}
    (h : i + bs.length ≤ buf.length) : (writeAt buf i bs).length = buf.length := by
  simp [writeAt]
  omega

theorem pending_length {s : ReadState} (h1 : s.total_consumed ≤ s.index)
    (h2 : s.index ≤ s.buffer.length) :
    s.pending.length = s.index - s.total_consumed := by
  simp [ReadState.pending]
  omega

theorem transportRead_length_le (chunks : List (List Byte)) (space : Nat) :
    (transportRead chunks space).1.length ≤ space ∨ chunks = [] := by
  match chunks with
  | [] => exact Or.inr rfl
  | c :: rest =>
    left
    simp only [transportRead]
    split
    · assumption
    · simp

theorem maybeNext_shift {σ F E : Type} (cod : Codec σ F E) (m : Machine σ)
    (h : m.rs.shift = true) :
    maybeNext cod m =
      ({ m with rs :=
          { m.rs with buffer := copyWithin m.rs.buffer m.rs.total_consumed m.rs.index
                      index := m.rs.index - m.rs.total_consumed
                      total_consumed := 0
                      shift := false } }, .progress) := by
  simp [maybeNext, h]

theorem maybeNext_eof_frame {σ F E : Type} (cod : Codec σ F E) (m : Machine σ)
    {cs : σ} {ns : List Byte} {f : F} {n : Nat}
    (hsh : m.rs.shift = false) (hfr : m.rs.is_framable = true)
    (heof : m.rs.eof = true)
    (hdec : cod.decodeEof m.codec m.rs.pending = (cs, ns, .ok (some (f, n)))) :
    maybeNext cod m =
      ({ codec := cs
         rs := { m.rs with
                   buffer := writeBack m.rs.buffer m.rs.total_consumed m.rs.index ns
                   total_consumed := m.rs.total_consumed + n }
         chunks := m.chunks }, .frame f) := by
  simp [maybeNext, hsh, hfr, heof, hdec]

theorem maybeNext_eof_none {σ F E : Type} (cod : Codec σ F E) (m : Machine σ)
    {cs : σ} {ns : List Byte}
    (hsh : m.rs.shift = false) (hfr : m.rs.is_framable = true)
    (heof : m.rs.eof = true)
    (hdec : cod.decodeEof m.codec m.rs.pending = (cs, ns, .ok none)) :
    maybeNext cod m =
      ({ codec := cs
         rs := { m.rs with
                   buffer := writeBack m.rs.buffer m.rs.total_consumed m.rs.index ns
                   is_framable := false }
         chunks := m.chunks },
       if m.rs.index ≠ m.rs.total_consumed then .fail .bytesRemainingOnStream
       else .terminal) := by
  by_cases hit : m.rs.index = m.rs.total_consumed <;>
    simp [maybeNext, hsh, hfr, heof, hdec, hit]

theorem maybeNext_eof_err {σ F E : Type} (cod : Codec σ F E) (m : Machine σ)
    {cs : σ} {ns : List Byte} {e : E}
    (hsh : m.rs.shift = false) (hfr : m.rs.is_framable = true)
    (heof : m.rs.eof = true)
    (hdec : cod.decodeEof m.codec m.rs.pending = (cs, ns, .err e)) :
    maybeNext cod m =
      ({ codec := cs
         rs := { m.rs with
                   buffer := writeBack m.rs.buffer m.rs.total_consumed m.rs.index ns }
         chunks := m.chunks }, .fail (.decodeErr e)) := by
  simp [maybeNext, hsh, hfr, heof, hdec]

theorem maybeNext_dec_frame {σ F E : Type} (cod : Codec σ F E) (m : Machine σ)
    {cs : σ} {ns : List Byte} {f : F} {n : Nat}
    (hsh : m.rs.shift = false) (hfr : m.rs.is_framable = true)
    (heof : m.rs.eof = false)
    (hdec : cod.decode m.codec m.rs.pending = (cs, ns, .ok (some (f, n)))) :
    maybeNext cod m =
      ({ codec := cs
         rs := { m.rs with
                   buffer := writeBack m.rs.buffer m.rs.total_consumed m.rs.index ns
                   total_consumed := m.rs.total_consumed + n }
         chunks := m.chunks }, .frame f) := by
  simp [maybeNext, hsh, hfr, heof, hdec]

theorem maybeNext_dec_none {σ F E : Type} (cod : Codec σ F E) (m : Machine σ)
    {cs : σ} {ns : List Byte}
    (hsh : m.rs.shift = false) (hfr : m.rs.is_framable = true)
    (heof : m.rs.eof = false)
    (hdec : cod.decode m.codec m.rs.pending = (cs, ns, .ok none)) :
    maybeNext cod m =
      ({ codec := cs
         rs := { m.rs with
                   buffer := writeBack m.rs.buffer m.rs.total_consumed m.rs.index ns
                   shift := decide (m.rs.index ≥ m.rs.buffer.length)
                   is_framable := false }
         chunks := m.chunks }, .progress) := by
  simp [maybeNext, hsh, hfr, heof, hdec]

theorem maybeNext_dec_err {σ F E : Type} (cod : Codec σ F E) (m : Machine σ)
    {cs : σ} {ns : List Byte} {e : E}
    (hsh : m.rs.shift = false) (hfr : m.rs.is_framable = true)
    (heof : m.rs.eof = false)
    (hdec : cod.decode m.codec m.rs.pending = (cs, ns, .err e)) :
    maybeNext cod m =
      ({ codec := cs
         rs := { m.rs with
                   buffer := writeBack m.rs.buffer m.rs.total_consumed m.rs.index ns }
         chunks := m.chunks }, .fail (.decodeErr e)) := by
  simp [maybeNext, hsh, hfr, heof, hdec]

theorem maybeNext_full {σ F E : Type} (cod : Codec σ F E) (m : Machine σ)
    (hsh : m.rs.shift = false) (hfr : m.rs.is_framable = false)
    (hbig : m.rs.buffer.length ≤ m.rs.index) :
    maybeNext cod m = (m, .fail .bufferTooSmall) := by
  simp [maybeNext, hsh, hfr, hbig]

theorem maybeNext_read_eof {σ F E : Type} (cod : Codec σ F E) (m : Machine σ)
    (hsh : m.rs.shift = false) (hfr : m.rs.is_framable = false)
    (hroom : m.rs.index < m.rs.buffer.length) (hch : m.chunks = []) :
    maybeNext cod m =
      ({ m with chunks := []
                rs := { m.rs with eof := true, is_framable := true } },
       .progress) := by
  simp [maybeNext, hsh, hfr, Nat.not_le.mpr hroom, hch, transportRead]

theorem maybeNext_read_bytes {σ F E : Type} (cod : Codec σ F E) (m : Machine σ)
    {c : List Byte} {rest : List (List Byte)}
    (hsh : m.rs.shift = false) (hfr : m.rs.is_framable = false)
    (hroom : m.rs.index < m.rs.buffer.length) (hch : m.chunks = c :: rest)
    (hc : c ≠ []) :
    maybeNext cod m =
      (let space := m.rs.buffer.length - m.rs.index
       let bs := if c.length ≤ space then c else c.take space
       { m with
           chunks := if c.length ≤ space then rest else c.drop space :: rest
           rs := { m.rs with buffer := writeAt m.rs.buffer m.rs.index bs
                             index := m.rs.index + bs.length
                             is_framable := true } },
       .progress) := by
  have hsp : 0 < m.rs.buffer.length - m.rs.index := by omega
  by_cases hfit : c.length ≤ m.rs.buffer.length - m.rs.index
  · have : c.isEmpty = false := by
      cases c with
      | nil => exact absurd rfl hc
      | cons a t => rfl
    simp [maybeNext, hsh, hfr, Nat.not_le.mpr hroom, hch, transportRead, hfit, this]
  · have hne : (c.take (m.rs.buffer.length - m.rs.index)).isEmpty = false := by
      have : (c.take (m.rs.buffer.length - m.rs.index)).length =
          min (m.rs.buffer.length - m.rs.index) c.length := by simp
      cases hgo : c.take (m.rs.buffer.length - m.rs.index) with
      | nil => rw [hgo] at this; simp at this; omega
      | cons a t => rfl
    simp [maybeNext, hsh, hfr, Nat.not_le.mpr hroom, hch, transportRead, hfit, hne]

/-! ## C10: raw bytes decode is total and the session never ends -/

/-- C10: for every `src`, `Bytes::decode` returns `Ok(Some((src, src.len())))`
and never `Ok(None)` — in particular on the empty slice it produces the
empty frame with consumed size 0 — and consequently a read driver using
the `Bytes` codec never reaches the terminal `None` outcome: `decode_eof`
(the trait default, delegating to `decode`) always frames, so the
`Ok(None)`-at-EOF branch that returns `None` is unreachable. -/
theorem bytes_decode_always_frames :
    (∀ src : List Byte, bytesDecodeFn src = .ok (some (src, src.length))) ∧
    (∀ m : Machine Unit, (maybeNext bytesCodec m).2 ≠ StepRes.terminal) := by
  refine ⟨fun src => rfl, fun m h => ?_⟩
  by_cases hsh : m.rs.shift
  · rw [maybeNext_shift bytesCodec m hsh] at h
    exact StepRes.noConfusion h
  · by_cases hfr : m.rs.is_framable
    · by_cases heof : m.rs.eof
      · rw [maybeNext_eof_frame bytesCodec m (by simp [hsh]) (by simp [hfr])
          (by simp [heof]) rfl] at h
        exact StepRes.noConfusion h
      · rw [maybeNext_dec_frame bytesCodec m (by simp [hsh]) (by simp [hfr])
          (by simp [heof]) rfl] at h
        exact StepRes.noConfusion h
    · by_cases hbig : m.rs.buffer.length ≤ m.rs.index
      · rw [maybeNext_full bytesCodec m (by simp [hsh]) (by simp [hfr]) hbig] at h
        exact StepRes.noConfusion h
      · match hch : m.chunks with
        | [] =>
          rw [maybeNext_read_eof bytesCodec m (by simp [hsh]) (by simp [hfr])
            (by omega) hch] at h
          exact StepRes.noConfusion h
        | c :: rest =>
          by_cases hc : c = []
          · subst hc
            simp [maybeNext, hsh, hfr, Nat.not_le.mpr (show m.rs.index < m.rs.buffer.length by omega),
              hch, transportRead] at h
          · rw [maybeNext_read_bytes bytesCodec m (by simp [hsh]) (by simp [hfr])
              (by omega) hch hc] at h
            simp at h

/-! ## C4: end-of-stream residue handling -/

/-- C4: in a step with `eof` set, `shift` clear, `is_framable` set, and
`decode_eof` returning `Ok(None)` on `buffer[total_consumed..index]`, the
step clears `is_framable` and returns `Err(BytesRemainingOnStream)` if
and only if `index ≠ total_consumed`; when `index = total_consumed` it
returns the terminal `None` outcome instead. -/
theorem eof_residue_step {σ F E : Type} (cod : Codec σ F E) (m : Machine σ)
    (cs : σ) (ns : List Byte)
    (hsh : m.rs.shift = false) (hfr : m.rs.is_framable = true)
    (heof : m.rs.eof = true)
    (hdec : cod.decodeEof m.codec m.rs.pending = (cs, ns, .ok none)) :
    ((maybeNext cod m).2 = .fail .bytesRemainingOnStream ↔
        m.rs.index ≠ m.rs.total_consumed) ∧
    ((maybeNext cod m).2 = .terminal ↔ m.rs.index = m.rs.total_consumed) ∧
    (maybeNext cod m).1.rs.is_framable = false := by
  rw [maybeNext_eof_none cod m hsh hfr heof hdec]
  by_cases hit : m.rs.index = m.rs.total_consumed <;> simp [hit]

/-- Witness for `eof_residue_step`: a concrete EOF state with one residual
unconsumed byte yields `Err(BytesRemainingOnStream)` and clears
`is_framable`. -/
theorem eof_residue_step_witness :
    ((maybeNext nullCodec
        { codec := ()
          rs := { index := 2, eof := true, is_framable := true, shift := false
                  total_consumed := 1, buffer := [7, 8, 9] }
          chunks := [] }).2 = .fail .bytesRemainingOnStream ↔ (2 : Nat) ≠ 1) ∧
    ((maybeNext nullCodec
        { codec := ()
          rs := { index := 2, eof := true, is_framable := true, shift := false
                  total_consumed := 1, buffer := [7, 8, 9] }
          chunks := [] }).2 = .terminal ↔ (2 : Nat) = 1) ∧
    (maybeNext nullCodec
        { codec := ()
          rs := { index := 2, eof := true, is_framable := true, shift := false
                  total_consumed := 1, buffer := [7, 8, 9] }
          chunks := [] }).1.rs.is_framable = false :=
  eof_residue_step nullCodec
    { codec := ()
      rs := { index := 2, eof := true, is_framable := true, shift := false
              total_consumed := 1, buffer := [7, 8, 9] }
      chunks := [] } () [8] rfl rfl rfl rfl

/-! ## C8: compaction policy after a non-framing decode -/

/-- C8: after a non-framing decode in a non-EOF step, the fraims driver
(`FramedImpl::maybe_next`) sets `shift` to `total_consumed > 0` when the
`buffer-early-shift` build option is enabled and to `index >= buf_len`
otherwise — but the framez driver (`FramedCore::maybe_next`) has no
early-shift compile path at all, despite `framez/src/lib.rs` documenting
the `buffer-early-shift` feature: at a state with `total_consumed = 1`,
`index = 2`, buffer length 4, the framez step leaves `shift` clear while
the documented early-shift behaviour (as implemented by fraims) sets it. -/
theorem early_shift_divergence :
    (maybeNext nullCodec
        { codec := ()
          rs := { index := 2, eof := false, is_framable := true, shift := false
                  total_consumed := 1, buffer := [7, 8, 9, 0] }
          chunks := [] }).1.rs.shift = false ∧
    (fraimsMaybeNext true nullCodec
        { codec := ()
          rs := { index := 2, eof := false, is_framable := true, shift := false
                  total_consumed := 1, buffer := [7, 8, 9, 0] }
          chunks := [] }).1.rs.shift = true ∧
    (fraimsMaybeNext false nullCodec
        { codec := ()
          rs := { index := 2, eof := false, is_framable := true, shift := false
                  total_consumed := 1, buffer := [7, 8, 9, 0] }
          chunks := [] }).1.rs.shift = false := by
  refine ⟨?_, ?_, ?_⟩ <;> decide

/-! ## C9: send discipline -/

/-- C9: `send(item)` first encodes; an encode failure returns
`Err(Encode(e))` with no transport interaction at all. On success it
writes exactly the first `size` bytes of the write buffer with a
write-all discipline and then flushes, mapping either transport failure
to `Err(IO(e))`; the result is `Ok` exactly when encode, write-all and
flush all succeeded, and in that case the event log is precisely the
write of the encoded prefix followed by the flush. -/
theorem send_discipline {Ei Ee : Type}
    (encode : List Byte → Except Ee (List Byte × Nat))
    (writeAll : List Byte → Except Ei Unit) (flush : Unit → Except Ei Unit)
    (wbuf : List Byte) :
    (∀ e, encode wbuf = .error e →
      send encode writeAll flush wbuf = ([], .error (.encodeFail e))) ∧
    (∀ buf' size e, encode wbuf = .ok (buf', size) →
      writeAll (buf'.take size) = .error e →
      send encode writeAll flush wbuf = ([], .error (.ioErr e))) ∧
    (∀ buf' size e, encode wbuf = .ok (buf', size) →
      writeAll (buf'.take size) = .ok () → flush () = .error e →
      send encode writeAll flush wbuf =
        ([.wrote (buf'.take size)], .error (.ioErr e))) ∧
    (∀ buf' size, encode wbuf = .ok (buf', size) →
      writeAll (buf'.take size) = .ok () → flush () = .ok () →
      send encode writeAll flush wbuf =
        ([.wrote (buf'.take size), .flushed], .ok ())) ∧
    ((send encode writeAll flush wbuf).2 = .ok () ↔
      ∃ buf' size, encode wbuf = .ok (buf', size) ∧
        writeAll (buf'.take size) = .ok () ∧ flush () = .ok ()) := by
  refine ⟨?_, ?_, ?_, ?_, ?_⟩
  · intro e he; simp [send, he]
  · intro buf' size e he hw; simp [send, he, hw]
  · intro buf' size e he hw hf; simp [send, he, hw, hf]
  · intro buf' size he hw hf; simp [send, he, hw, hf]
  · constructor
    · intro h
      match henc : encode wbuf with
      | .error e => simp [send, henc] at h
      | .ok (buf', size) =>
        refine ⟨buf', size, rfl, ?_⟩
        match hw : writeAll (buf'.take size) with
        | .error e => simp [send, henc, hw] at h
        | .ok u =>
          match hf : flush () with
          | .error e => simp [send, henc, hw, hf] at h
          | .ok v => exact ⟨rfl, rfl⟩
    · rintro ⟨buf', size, he, hw, hf⟩
      simp [send, he, hw, hf]

/-- Witness for `send_discipline`: sending the line `"Hi"` through the
byte-line encoder over a transport that accepts everything writes exactly
`"Hi\r\n"` and then flushes. -/
theorem send_discipline_witness :
    send (linesEncode [72, 105]) (fun _ => (Except.ok () : Except Unit Unit))
      (fun _ => (Except.ok () : Except Unit Unit)) [0, 0, 0, 0, 0] =
      ([.wrote (([72, 105, 13, 10, 0] : List Byte).take 4), .flushed], .ok ()) :=
  (send_discipline (linesEncode [72, 105])
      (fun _ => (Except.ok () : Except Unit Unit))
      (fun _ => (Except.ok () : Except Unit Unit)) [0, 0, 0, 0, 0]).2.2.2.1
    [72, 105, 13, 10, 0] 4 rfl rfl rfl

/-! ## C2: invariant preservation -/

/-- C2: for every step of the read driver, from a state satisfying I1 and
with any decoder whose reported consumed size is at most the length of
the slice it was handed (and, as Rust slices enforce, which preserves the
slice's length), the invariants hold again after the step: I1
(`total_consumed ≤ index ≤ buffer.len()`), I4 (`eof` is monotone), I2
(a successful decode adds the reported size to `total_consumed` and
changes no other bookkeeping field, `index` remaining unchanged), I3
(a shift step moves `buffer[total_consumed..index]` to the front, sets
`index := index - total_consumed` and `total_consumed := 0`), and I5
(no read from the source happens while `is_framable` is set). -/
theorem step_preserves_invariants {σ F E : Type} (cod : Codec σ F E)
    (m : Machine σ)
    (hdec : ∀ cs src, DecOk (cod.decode cs src) src)
    (hdecEof : ∀ cs src, DecOk (cod.decodeEof cs src) src)
    (hInv : Inv m.rs) :
    Inv (maybeNext cod m).1.rs
    ∧ (m.rs.eof = true → (maybeNext cod m).1.rs.eof = true)
    ∧ (∀ f : F, (maybeNext cod m).2 = .frame f →
        ∃ cs ns n,
          (if m.rs.eof then cod.decodeEof m.codec m.rs.pending
           else cod.decode m.codec m.rs.pending) = (cs, ns, .ok (some (f, n)))
          ∧ (maybeNext cod m).1.rs.total_consumed = m.rs.total_consumed + n
          ∧ (maybeNext cod m).1.rs.index = m.rs.index
          ∧ (maybeNext cod m).1.rs.eof = m.rs.eof
          ∧ (maybeNext cod m).1.rs.shift = m.rs.shift
          ∧ (maybeNext cod m).1.rs.is_framable = m.rs.is_framable)
    ∧ (m.rs.shift = true →
        (maybeNext cod m).1.rs.index = m.rs.index - m.rs.total_consumed
        ∧ (maybeNext cod m).1.rs.total_consumed = 0
        ∧ (maybeNext cod m).1.rs.buffer.take (m.rs.index - m.rs.total_consumed)
            = (m.rs.buffer.drop m.rs.total_consumed).take
                (m.rs.index - m.rs.total_consumed))
    ∧ (m.rs.is_framable = true → (maybeNext cod m).1.chunks = m.chunks) := by
  obtain ⟨h1, h2⟩ := hInv
  have hplen : m.rs.pending.length = m.rs.index - m.rs.total_consumed :=
    pending_length h1 h2
  by_cases hsh : m.rs.shift
  · rw [maybeNext_shift cod m hsh]
    have hlen : (copyWithin m.rs.buffer m.rs.total_consumed m.rs.index).length
        = m.rs.buffer.length := copyWithin_length h1 h2
    refine ⟨⟨by simp, by simp [hlen]; omega⟩, by simp, by simp, ?_, by simp⟩
    intro _
    refine ⟨rfl, rfl, ?_⟩
    simp only [copyWithin]
    rw [List.take_append_of_le_length]
    · simp
    · simp; omega
  · replace hsh : m.rs.shift = false := by simpa using hsh
    by_cases hfr : m.rs.is_framable
    · replace hfr : m.rs.is_framable = true := by simpa using hfr
      by_cases heof : m.rs.eof
      · replace heof : m.rs.eof = true := by simpa using heof
        rcases hd : cod.decodeEof m.codec m.rs.pending with ⟨cs, ns, res⟩
        obtain ⟨hlen, hsz⟩ := hdecEof m.codec m.rs.pending
        rw [hd] at hlen hsz
        simp only at hlen hsz
        have hwb : (writeBack m.rs.buffer m.rs.total_consumed m.rs.index ns).length
            = m.rs.buffer.length :=
          writeBack_length h1 h2 (by rw [hlen, hplen])
        match res with
        | .ok (some (f, n)) =>
          rw [maybeNext_eof_frame cod m hsh hfr heof hd]
          have hn : n ≤ m.rs.pending.length := hsz f n rfl
          refine ⟨⟨by simp; omega, by simp [hwb]; omega⟩, by simp [heof], ?_, by simp [hsh], by simp⟩
          intro f' hf'
          simp only [StepRes.frame.injEq] at hf'
          subst hf'
          exact ⟨cs, ns, n, by simp [heof, hd], by simp, by simp, by simp [heof], by simp [hsh], by simp [hfr]⟩
        | .ok none =>
          rw [maybeNext_eof_none cod m hsh hfr heof hd]
          refine ⟨⟨by simp; omega, by simp [hwb]; omega⟩, by simp [heof], ?_, by simp [hsh], by simp⟩
          intro f' hf'
          by_cases hit : m.rs.index = m.rs.total_consumed <;> simp [hit] at hf'
        | .err e =>
          rw [maybeNext_eof_err cod m hsh hfr heof hd]
          refine ⟨⟨by simp; omega, by simp [hwb]; omega⟩, by simp [heof], by simp, by simp [hsh], by simp⟩
      · replace heof : m.rs.eof = false := by simpa using heof
        rcases hd : cod.decode m.codec m.rs.pending with ⟨cs, ns, res⟩
        obtain ⟨hlen, hsz⟩ := hdec m.codec m.rs.pending
        rw [hd] at hlen hsz
        simp only at hlen hsz
        have hwb : (writeBack m.rs.buffer m.rs.total_consumed m.rs.index ns).length
            = m.rs.buffer.length :=
          writeBack_length h1 h2 (by rw [hlen, hplen])
        match res with
        | .ok (some (f, n)) =>
          rw [maybeNext_dec_frame cod m hsh hfr heof hd]
          have hn : n ≤ m.rs.pending.length := hsz f n rfl
          refine ⟨⟨by simp; omega, by simp [hwb]; omega⟩, by simp [heof], ?_, by simp [hsh], by simp⟩
          intro f' hf'
          simp only [StepRes.frame.injEq] at hf'
          subst hf'
          exact ⟨cs, ns, n, by simp [heof, hd], by simp, by simp, by simp [heof], by simp [hsh], by simp [hfr]⟩
        | .ok none =>
          rw [maybeNext_dec_none cod m hsh hfr heof hd]
          refine ⟨⟨by simp; omega, by simp [hwb]; omega⟩, by simp [heof], by simp, by simp [hsh], by simp⟩
        | .err e =>
          rw [maybeNext_dec_err cod m hsh hfr heof hd]
          refine ⟨⟨by simp; omega, by simp [hwb]; omega⟩, by simp [heof], by simp, by simp [hsh], by simp⟩
    · replace hfr : m.rs.is_framable = false := by simpa using hfr
      by_cases hbig : m.rs.buffer.length ≤ m.rs.index
      · rw [maybeNext_full cod m hsh hfr hbig]
        exact ⟨⟨h1, h2⟩, by simp, by simp, by simp [hsh], by simp [hfr]⟩
      · have hroom : m.rs.index < m.rs.buffer.length := by omega
        match hch : m.chunks with
        | [] =>
          rw [maybeNext_read_eof cod m hsh hfr hroom hch]
          exact ⟨⟨h1, h2⟩, by simp, by simp, by simp [hsh], by simp [hfr]⟩
        | c :: rest =>
          by_cases hc : c = []
          · subst hc
            have : maybeNext cod m =
                ({ m with chunks := rest
                          rs := { m.rs with eof := true, is_framable := true } },
                 .progress) := by
              simp [maybeNext, hsh, hfr, Nat.not_le.mpr hroom, hch, transportRead]
            rw [this]
            exact ⟨⟨h1, h2⟩, by simp, by simp, by simp [hsh], by simp [hfr]⟩
          · rw [maybeNext_read_bytes cod m hsh hfr hroom hch hc]
            by_cases hfit : c.length ≤ m.rs.buffer.length - m.rs.index
            · have hwa : (writeAt m.rs.buffer m.rs.index c).length = m.rs.buffer.length :=
                writeAt_length (by omega)
              refine ⟨⟨?_, ?_⟩, by simp, by simp [hfit], by simp [hsh], by simp [hfr]⟩
              · simp [hfit]; omega
              · simp [hfit, hwa]; omega
            · have htk : (c.take (m.rs.buffer.length - m.rs.index)).length
                  = m.rs.buffer.length - m.rs.index := by simp; omega
              have hwa : (writeAt m.rs.buffer m.rs.index
                  (c.take (m.rs.buffer.length - m.rs.index))).length
                  = m.rs.buffer.length := writeAt_length (by rw [htk]; omega)
              refine ⟨⟨?_, ?_⟩, by simp, by simp [hfit], by simp [hsh], by simp [hfr]⟩
              · simp [hfit]; omega
              · simp [hfit, hwa, htk]; omega

/-- Witness for `step_preserves_invariants`: the invariants hold after a
concrete step of the always-`Ok(None)` decoder from a concrete I1 state. -/
theorem step_preserves_invariants_witness :
    Inv (maybeNext nullCodec
      { codec := ()
        rs := { index := 2, eof := false, is_framable := true, shift := false
                total_consumed := 1, buffer := [7, 8, 9, 0] }
        chunks := [[5]] }).1.rs :=
  (step_preserves_invariants nullCodec
    { codec := ()
      rs := { index := 2, eof := false, is_framable := true, shift := false
              total_consumed := 1, buffer := [7, 8, 9, 0] }
      chunks := [[5]] }
    (fun cs src => ⟨rfl, by intro f n h; simp [nullCodec] at h⟩)
    (fun cs src => ⟨rfl, by intro f n h; simp [nullCodec] at h⟩)
    ⟨by decide, by decide⟩).1

/-! ## Scan lemmas for the delimiter and line codecs -/

theorem getD_of_drop_cons {src rest : List Byte} {b : Byte} {seen : Nat}
    (h : src.drop seen = b :: rest) : src.getD seen 0 = b := by
  have h1 := List.head?_drop src seen
  rw [h] at h1
  rw [List.getD_eq_getElem?_getD, ← h1]
  rfl

theorem drop_cons_tail {src rest : List Byte} {b : Byte} {seen : Nat}
    (h : src.drop seen = b :: rest) : src.drop (seen + 1) = rest := by
  have h1 : src.drop (seen + 1) = (src.drop seen).drop 1 := by
    rw [List.drop_drop]
  rw [h1, h]
  rfl

theorem drop_cons_lt {src rest : List Byte} {b : Byte} {seen : Nat}
    (h : src.drop seen = b :: rest) : seen < src.length := by
  by_contra hle
  push_neg at hle
  rw [List.drop_eq_nil_iff.mpr hle] at h
  exact List.noConfusion h

theorem matchEnd_getD_lastByte {delim src : List Byte} {q : Nat} {lb : Byte}
    (hlb : delim.getLast? = some lb) (hq : q < src.length)
    (hm : isMatchEnd delim src q = true) : src.getD q 0 = lb := by
  simp only [isMatchEnd, Bool.and_eq_true, decide_eq_true_eq] at hm
  obtain ⟨hD, hext⟩ := hm
  have hDpos : 0 < delim.length := by
    cases delim with
    | nil => simp at hlb
    | cons d t => simp
  have h1 : ((src.drop (q + 1 - delim.length)).take delim.length).getLast?
      = some lb := by rw [hext]; exact hlb
  have hlen : ((src.drop (q + 1 - delim.length)).take delim.length).length
      = delim.length := by rw [hext]
  rw [List.getLast?_eq_getElem?, hlen, List.getElem?_take,
    if_pos (by omega : delim.length - 1 < delim.length),
    List.getElem?_drop,
    (by omega : q + 1 - delim.length + (delim.length - 1) = q)] at h1
  rw [List.getD_eq_getElem?_getD, h1]
  rfl

theorem delimGo_eq_spec {delim src : List Byte} {lb : Byte}
    (hlb : delim.getLast? = some lb)
    (hhaz : ∀ q, q < src.length → q + 1 < delim.length → src.getD q 0 ≠ lb) :
    ∀ suf seen, suf = src.drop seen → seen ≤ src.length →
      delimLoopGo delim lb src suf seen =
        (match delimSpecScanGo delim src suf seen with
         | some q => (0, DelimOut.ok (some (src.take (q + 1 - delim.length), q + 1)))
         | none => (src.length, DelimOut.ok none)) := by
  intro suf
  induction suf with
  | nil =>
    intro seen hsuf hseen
    have hge : src.length ≤ seen := List.drop_eq_nil_iff.mp hsuf.symm
    have hseq : seen = src.length := by omega
    simp [delimLoopGo, delimSpecScanGo, hseq]
  | cons b rest ih =>
    intro seen hsuf hseen
    have hb : src.getD seen 0 = b := getD_of_drop_cons hsuf.symm
    have hlt : seen < src.length := drop_cons_lt hsuf.symm
    have htl : src.drop (seen + 1) = rest := drop_cons_tail hsuf.symm
    by_cases hm : isMatchEnd delim src seen = true
    · have hbl : b = lb := by rw [← hb]; exact matchEnd_getD_lastByte hlb hlt hm
      obtain ⟨hD, hext⟩ : delim.length ≤ seen + 1 ∧
          (src.drop (seen + 1 - delim.length)).take delim.length = delim := by
        simpa [isMatchEnd] using hm
      simp only [delimLoopGo, delimSpecScanGo, hm, if_true]
      rw [if_pos hbl, if_neg (by omega : ¬(seen + 1 < delim.length)), if_pos hext]
    · have hm' : isMatchEnd delim src seen = false := by
        revert hm; cases isMatchEnd delim src seen <;> simp
      simp only [delimSpecScanGo, hm', Bool.false_eq_true, if_false]
      by_cases hbl : b = lb
      · have hDle : ¬(seen + 1 < delim.length) := by
          intro hcon
          exact hhaz seen hlt hcon (by rw [hb, hbl])
        have hextne : ¬((src.drop (seen + 1 - delim.length)).take delim.length
            = delim) := by
          intro hext
          rw [show (isMatchEnd delim src seen) = true by
            simp [isMatchEnd, hext]; omega] at hm'
          exact Bool.noConfusion hm'
        simp only [delimLoopGo]
        rw [if_pos hbl, if_neg hDle, if_neg hextne]
        exact ih (seen + 1) htl.symm (by omega)
      · simp only [delimLoopGo]
        rw [if_neg hbl]
        exact ih (seen + 1) htl.symm (by omega)

theorem specScanGo_found {delim src : List Byte} {qstar : Nat}
    (hq : qstar < src.length) (hm : isMatchEnd delim src qstar = true)
    (hfirst : ∀ j, j < qstar → isMatchEnd delim src j = false) :
    ∀ suf seen, suf = src.drop seen → seen ≤ qstar →
      delimSpecScanGo delim src suf seen = some qstar := by
  intro suf
  induction suf with
  | nil =>
    intro seen hsuf hle
    have := List.drop_eq_nil_iff.mp hsuf.symm
    omega
  | cons b rest ih =>
    intro seen hsuf hle
    by_cases he : seen = qstar
    · subst he
      simp [delimSpecScanGo, hm]
    · have hf : isMatchEnd delim src seen = false := hfirst seen (by omega)
      simp only [delimSpecScanGo, hf, Bool.false_eq_true, if_false]
      exact ih (seen + 1) (drop_cons_tail hsuf.symm).symm (by omega)

theorem linesGo_found {src : List Byte} {q : Nat}
    (hq : q < src.length) (h10 : src.getD q 0 = 10)
    (hfirst : ∀ j, j < q → src.getD j 0 ≠ 10) :
    ∀ suf seen, suf = src.drop seen → seen ≤ q →
      linesLoopGo src suf seen =
        (0, some (if (src.take q).getLast? = some 13 then src.take (q - 1)
                  else src.take q, q + 1)) := by
  intro suf
  induction suf with
  | nil =>
    intro seen hsuf hle
    have := List.drop_eq_nil_iff.mp hsuf.symm
    omega
  | cons b rest ih =>
    intro seen hsuf hle
    have hb : src.getD seen 0 = b := getD_of_drop_cons hsuf.symm
    by_cases he : seen = q
    · subst he
      have hb10 : b = 10 := by rw [← hb, h10]
      simp [linesLoopGo, hb10]
    · have hne : b ≠ 10 := by rw [← hb]; exact hfirst seen (by omega)
      simp only [linesLoopGo]
      rw [if_neg hne]
      exact ih (seen + 1) (drop_cons_tail hsuf.symm).symm (by omega)

theorem linesGo_none {src : List Byte}
    (hno : ∀ j, j < src.length → src.getD j 0 ≠ 10) :
    ∀ suf seen, suf = src.drop seen → seen ≤ src.length →
      linesLoopGo src suf seen = (src.length, none) := by
  intro suf
  induction suf with
  | nil =>
    intro seen hsuf hle
    have hge : src.length ≤ seen := List.drop_eq_nil_iff.mp hsuf.symm
    have : seen = src.length := by omega
    simp [linesLoopGo, this]
  | cons b rest ih =>
    intro seen hsuf hle
    have hb : src.getD seen 0 = b := getD_of_drop_cons hsuf.symm
    have hlt : seen < src.length := drop_cons_lt hsuf.symm
    have hne : b ≠ 10 := by rw [← hb]; exact hno seen hlt
    simp only [linesLoopGo]
    rw [if_neg hne]
    exact ih (seen + 1) (drop_cons_tail hsuf.symm).symm (by omega)

/-! ## C6 and C7: Delimiter::decode behaviour and (non-)totality -/

/-- C6 as stated is false: `Delimiter::decode` does not return `Ok(None)`
when no full match exists; with delimiter `"ab"` on `src = "bx"` the walk
meets the last byte `b` at position 0, computes the usize subtraction
`seen + 1 - D = 1 - 2` and panics, where the claim's description demands
`Ok(None)` (the specification-side walk skips the position). -/
theorem delimiter_decode_cex :
    delimDecode [97, 98] 0 [98, 120] = (0, DelimOut.panic) ∧
    delimDecodeSpec [97, 98] 0 [98, 120] = (2, DelimOut.ok none) ∧
    (0, DelimOut.panic) ≠ ((2 : Nat), DelimOut.ok none) := by
  refine ⟨?_, ?_, ?_⟩ <;> decide

/-- C6 (amended): `Delimiter::decode` behaves exactly as described —
`Ok(None)` when `src.len() < D`; otherwise the walk from the stored
cursor returns, at the first position where the D bytes ending there
equal the delimiter, the frame `src[..seen + 1 - D]` with consumed size
`seen + 1` and resets the cursor; with no match the cursor stops at
`src.len()` and the result is `Ok(None)`; for `D = 0` (cursor necessarily
0) the frame is `src[..1]` — provided the delimiter's last byte does not
occur at any position `p` of `src` with `p + 1 < D` (there the code's
slice arithmetic underflows and panics) and `src` is nonempty when
`D = 0` (the code's `src[..seen + 1]` is out of bounds on an empty
slice). -/
theorem delimiter_decode_characterized (delim src : List Byte) (seen : Nat)
    (hseen : seen ≤ src.length)
    (hhaz : ∀ lb, delim.getLast? = some lb →
      ∀ q, q < src.length → q + 1 < delim.length → src.getD q 0 ≠ lb)
    (hempty : delim = [] → seen = 0 ∧ src ≠ []) :
    delimDecode delim seen src = delimDecodeSpec delim seen src := by
  by_cases hlen : src.length < delim.length
  · simp [delimDecode, delimDecodeSpec, hlen]
  · match hdl : delim.getLast? with
    | none =>
      have hnil : delim = [] := List.getLast?_eq_none_iff.mp hdl
      obtain ⟨hs0, hne⟩ := hempty hnil
      subst hs0
      have h1 : 0 + 1 ≤ src.length := by
        cases src with
        | nil => exact absurd rfl hne
        | cons a t => simp
      simp [delimDecode, delimDecodeSpec, hlen, hdl, h1]
    | some lb =>
      simp only [delimDecode, delimDecodeSpec, if_neg hlen, hdl, delimLoop,
        delimSpecScan]
      exact delimGo_eq_spec hdl (hhaz lb hdl) (src.drop seen) seen rfl hseen

/-- Witness for `delimiter_decode_characterized`: the delimiter `"##"` on
`"w##j"` frames `"w"` with consumed size 3, as both the code and the
specification-side description compute. -/
theorem delimiter_decode_characterized_witness :
    delimDecode [35, 35] 0 [119, 35, 35, 106] =
      delimDecodeSpec [35, 35] 0 [119, 35, 35, 106] :=
  delimiter_decode_characterized [35, 35] [119, 35, 35, 106] 0 (by decide)
    (by decide) (by intro h; exact List.noConfusion h)

/-- C7 is false of the code: `Delimiter::decode` is not total. Decoding
the delimiter codec's own encoding of the empty item with delimiter
`"##"` — the two bytes `"##"` — meets the last byte at position 0 and
computes `&src[self.seen + 1 - self.delimiter.len()..self.seen + 1]`,
i.e. `&src[1 - 2..1]`: the usize subtraction underflows (a panic in debug
builds; the wrapped start index makes the slice operation panic in
release builds). The encoder really produces that input from the empty
item. -/
theorem delimiter_decode_panics :
    delimEncode [35, 35] [] [0, 0] = .ok ([35, 35], 2) ∧
    delimDecode [35, 35] 0 [35, 35] = (0, DelimOut.panic) :=
  ⟨rfl, by decide⟩

/-! ## C3: round-trip -/

/-- C3 as stated is false: with the delimiter codec and delimiter `"aa"`,
the valid item `"ba"` (it does not contain the delimiter) encodes to
`"baaa"`, but decoding that yields the frame `"b"` with consumed size 3 —
a delimiter occurrence straddles the item/delimiter boundary and ends at
position 2 — not an item equal to `"ba"` consuming the encoded length 4. -/
theorem roundtrip_cex :
    delimEncode [97, 97] [98, 97] [0, 0, 0, 0] = .ok ([98, 97, 97, 97], 4) ∧
    delimDecode [97, 97] 0 [98, 97, 97, 97] = (0, .ok (some ([98], 3))) ∧
    ¬(([98] : List Byte) = [98, 97] ∧ (3 : Nat) = 4) :=
  ⟨rfl, by decide, by decide⟩

/-- Decoding the line encoding of an item without the newline byte yields
the item back and consumes exactly the encoded length. -/
theorem lines_roundtrip_frame (x : List Byte) (h10 : 10 ∉ x) :
    linesDecodeLoop (x ++ [13, 10]) 0 = (0, some (x, x.length + 2)) := by
  have hq : x.length + 1 < (x ++ [13, 10]).length := by simp
  have hgd : (x ++ [13, 10]).getD (x.length + 1) 0 = 10 := by
    rw [List.getD_eq_getElem?_getD, List.getElem?_append,
      if_neg (by omega : ¬(x.length + 1 < x.length)),
      (by omega : x.length + 1 - x.length = 1)]
    rfl
  have hfirst : ∀ j, j < x.length + 1 → (x ++ [13, 10]).getD j 0 ≠ 10 := by
    intro j hj
    rw [List.getD_eq_getElem?_getD, List.getElem?_append]
    by_cases hjx : j < x.length
    · rw [if_pos hjx]
      intro hcon
      cases hx : x[j]? with
      | none => rw [hx] at hcon; simp at hcon
      | some v =>
        rw [hx] at hcon
        simp at hcon
        rw [hcon] at hx
        exact h10 (List.getElem?_mem hx)
    · rw [if_neg hjx, (by omega : j - x.length = 0)]
      intro hcon
      simp at hcon
  have hmain := linesGo_found hq hgd hfirst (x ++ [13, 10]) 0 rfl (by omega)
  rw [linesDecodeLoop, List.drop_zero, hmain]
  have htake : (x ++ [13, 10]).take (x.length + 1) = x ++ [13] := by
    rw [List.take_append_eq_append_take, List.take_of_length_le (by omega),
      (by omega : x.length + 1 - x.length = 1)]
    rfl
  rw [htake]
  have hlast : (x ++ [13]).getLast? = some 13 := by
    rw [show x ++ [13] = x ++ [13] from rfl, List.getLast?_concat]
  rw [if_pos hlast,
    (by omega : x.length + 1 - 1 = x.length),
    List.take_append_of_le_length (le_refl x.length), List.take_length]

/-- Decoding the delimiter encoding of an item yields the item back with
the encoded length consumed, provided the scan meets no panic position
and no earlier full-delimiter occurrence. -/
theorem delim_roundtrip_frame (delim x : List Byte) (hne : delim ≠ [])
    (hhaz : ∀ lb, delim.getLast? = some lb →
      ∀ q, q + 1 < delim.length → (x ++ delim).getD q 0 ≠ lb)
    (hfirst : ∀ q, q + 1 < (x ++ delim).length →
      isMatchEnd delim (x ++ delim) q = false) :
    delimDecode delim 0 (x ++ delim) =
      (0, .ok (some (x, x.length + delim.length))) := by
  obtain ⟨lb, hlb⟩ : ∃ lb, delim.getLast? = some lb := by
    cases hdl : delim.getLast? with
    | none => exact absurd (List.getLast?_eq_none_iff.mp hdl) hne
    | some lb => exact ⟨lb, rfl⟩
  have hDpos : 0 < delim.length := by
    cases delim with
    | nil => exact absurd rfl hne
    | cons d t => simp
  have hylen : (x ++ delim).length = x.length + delim.length := by simp
  have hnlt : ¬((x ++ delim).length < delim.length) := by omega
  have hm : isMatchEnd delim (x ++ delim) (x.length + delim.length - 1) = true := by
    simp only [isMatchEnd, Bool.and_eq_true, decide_eq_true_eq]
    constructor
    · omega
    · rw [(by omega : x.length + delim.length - 1 + 1 - delim.length = x.length),
        List.drop_left, List.take_length]
  have hscan := specScanGo_found (by omega) hm
    (fun j hj => hfirst j (by omega)) ((x ++ delim).drop 0) 0 rfl (by omega)
  have hgo := delimGo_eq_spec hlb
    (fun q hq hD => hhaz lb hlb q hD) ((x ++ delim).drop 0) 0 rfl (by omega)
  simp only [delimDecode, if_neg hnlt, hlb, delimLoop]
  rw [hgo, hscan]
  have e1 : x.length + delim.length - 1 + 1 - delim.length = x.length := by omega
  have e2 : x.length + delim.length - 1 + 1 = x.length + delim.length := by omega
  have e3 : x.length + delim.length - delim.length = x.length := by omega
  simp only [e1, e2, e3, List.take_append_of_le_length (le_refl x.length),
    List.take_length]

/-- C3 (amended): the round-trip `decode(encode(x))` yields `x` and
consumes exactly the encoded length for: the raw bytes codec and every
item; the line codecs and every item not containing the newline byte
0x0A; and the delimiter codec under the provisos the counterexample
forces — the delimiter is nonempty, its last byte does not occur among
the first D−1 positions of `x ++ delimiter` (there the decoder panics),
and no full delimiter occurrence ends before the end of
`x ++ delimiter` (an earlier, possibly boundary-straddling, occurrence
makes the decoder frame early). Each part also identifies the bytes the
encoder wrote into the destination prefix. -/
theorem roundtrip_amended :
    (∀ x dst : List Byte, x.length ≤ dst.length →
      bytesEncode x dst = .ok (x ++ dst.drop x.length, x.length) ∧
      (x ++ dst.drop x.length).take x.length = x ∧
      bytesDecodeFn x = .ok (some (x, x.length))) ∧
    (∀ x dst : List Byte, 10 ∉ x → x.length + 2 ≤ dst.length →
      linesEncode x dst =
        .ok (x ++ [13, 10] ++ dst.drop (x.length + 2), x.length + 2) ∧
      (x ++ [13, 10] ++ dst.drop (x.length + 2)).take (x.length + 2) =
        x ++ [13, 10] ∧
      linesDecodeLoop (x ++ [13, 10]) 0 = (0, some (x, x.length + 2))) ∧
    (∀ delim x dst : List Byte, delim ≠ [] →
      (∀ lb, delim.getLast? = some lb →
        ∀ q, q + 1 < delim.length → (x ++ delim).getD q 0 ≠ lb) →
      (∀ q, q + 1 < (x ++ delim).length →
        isMatchEnd delim (x ++ delim) q = false) →
      x.length + delim.length ≤ dst.length →
      delimEncode delim x dst =
        .ok (x ++ delim ++ dst.drop (x.length + delim.length),
          x.length + delim.length) ∧
      (x ++ delim ++ dst.drop (x.length + delim.length)).take
          (x.length + delim.length) = x ++ delim ∧
      delimDecode delim 0 (x ++ delim) =
        (0, .ok (some (x, x.length + delim.length)))) := by
  refine ⟨?_, ?_, ?_⟩
  · intro x dst hlen
    refine ⟨?_, ?_, rfl⟩
    · rw [bytesEncode]
      simp only [if_neg (by omega : ¬(dst.length < x.length))]
    · rw [List.take_append_of_le_length (le_refl x.length), List.take_length]
  · intro x dst h10 hlen
    refine ⟨?_, ?_, lines_roundtrip_frame x h10⟩
    · rw [linesEncode]
      simp only [if_neg (by omega : ¬(dst.length < x.length + 2))]
    · rw [List.take_append_of_le_length (by simp),
        List.take_of_length_le (by simp)]
  · intro delim x dst hne hhaz hfirst hlen
    refine ⟨?_, ?_, delim_roundtrip_frame delim x hne hhaz hfirst⟩
    · rw [delimEncode]
      simp only [if_neg (by omega : ¬(dst.length < x.length + delim.length))]
    · rw [List.take_append_of_le_length (by simp),
        List.take_of_length_le (by simp)]

/-- Witness for `roundtrip_amended`: concrete round-trips through the
bytes codec (`[5]`), the line codec (`"H"`), and the `"##"` delimiter
codec (`"w"`). -/
theorem roundtrip_amended_witness :
    (bytesEncode [5] [0, 0] = .ok ([5] ++ [0, 0].drop 1, 1) ∧
      (([5] : List Byte) ++ [0, 0].drop 1).take 1 = [5] ∧
      bytesDecodeFn [5] = .ok (some ([5], 1))) ∧
    (linesEncode [72] [0, 0, 0, 0] =
        .ok ([72] ++ [13, 10] ++ [0, 0, 0, 0].drop 3, 3) ∧
      (([72] : List Byte) ++ [13, 10] ++ [0, 0, 0, 0].drop 3).take 3 =
        [72] ++ [13, 10] ∧
      linesDecodeLoop ([72] ++ [13, 10]) 0 = (0, some ([72], 3))) ∧
    (delimEncode [35, 35] [119] [0, 0, 0] =
        .ok ([119] ++ [35, 35] ++ [0, 0, 0].drop 3, 3) ∧
      (([119] : List Byte) ++ [35, 35] ++ [0, 0, 0].drop 3).take 3 =
        [119] ++ [35, 35] ∧
      delimDecode [35, 35] 0 ([119] ++ [35, 35]) = (0, .ok (some ([119], 3)))) :=
  ⟨roundtrip_amended.1 [5] [0, 0] (by decide),
   roundtrip_amended.2.1 [72] [0, 0, 0, 0] (by decide) (by decide),
   roundtrip_amended.2.2 [35, 35] [119] [0, 0, 0] (by decide)
     (by
       intro lb hlb q hq
       have hq1 : q + 1 < 2 := by simpa using hq
       have hq0 : q = 0 := by omega
       subst hq0
       have h2 := hlb
       rw [show ([35, 35] : List Byte).getLast? = some 35 from rfl] at h2
       have h3 : (35 : Byte) = lb := Option.some.inj h2
       subst h3
       decide)
     (by
       intro q hq
       have hq1 : q + 1 < 3 := by simpa using hq
       have : q = 0 ∨ q = 1 := by omega
       rcases this with h | h <;> subst h <;> decide)
     (by decide)⟩

/-! ## CRC-32 lemmas: linearity over xor and single-flip detection -/

theorem xor_mix (a b x y : Nat) : a ^^^ b ^^^ (x ^^^ y) = a ^^^ x ^^^ (b ^^^ y) := by
  apply Nat.eq_of_testBit_eq
  intro i
  simp only [Nat.testBit_xor]
  cases a.testBit i <;> cases b.testBit i <;> cases x.testBit i <;>
    cases y.testBit i <;> rfl

theorem xor_cancel_left (a t : Nat) (h : a ^^^ t = a) : t = 0 := by
  have h2 : a ^^^ (a ^^^ t) = a ^^^ a := by rw [h]
  rwa [← Nat.xor_assoc, Nat.xor_self, Nat.zero_xor] at h2

theorem xor_right_cancel {u v c : Nat} (h : u ^^^ c = v ^^^ c) : u = v := by
  have h2 : u ^^^ c ^^^ c = v ^^^ c ^^^ c := by rw [h]
  rwa [Nat.xor_assoc, Nat.xor_self, Nat.xor_zero, Nat.xor_assoc, Nat.xor_self,
    Nat.xor_zero] at h2

theorem xor_div_two (a b : Nat) : (a ^^^ b) / 2 = a / 2 ^^^ b / 2 := by
  apply Nat.eq_of_testBit_eq
  intro i
  simp [Nat.testBit_div_two, Nat.testBit_xor]

theorem xor_mod_two (a b : Nat) : (a ^^^ b) % 2 = a % 2 ^^^ b % 2 := by
  have h := Nat.testBit_xor a b 0
  rw [Nat.testBit_zero, Nat.testBit_zero, Nat.testBit_zero] at h
  rcases Nat.mod_two_eq_zero_or_one a with ha | ha <;>
    rcases Nat.mod_two_eq_zero_or_one b with hb | hb <;>
    rcases Nat.mod_two_eq_zero_or_one (a ^^^ b) with hx | hx <;>
    simp [ha, hb, hx] at h ⊢

theorem crcRound_xor (a b : Nat) : crcRound (a ^^^ b) = crcRound a ^^^ crcRound b := by
  unfold crcRound
  have hx := xor_mod_two a b
  rcases Nat.mod_two_eq_zero_or_one a with ha | ha <;>
    rcases Nat.mod_two_eq_zero_or_one b with hb | hb <;>
    rw [ha, hb] at hx <;> simp only [ha, hb, hx] <;> norm_num <;>
    rw [xor_div_two] <;>
    apply Nat.eq_of_testBit_eq <;> intro i <;>
    simp only [Nat.testBit_xor] <;>
    cases (a / 2).testBit i <;> cases (b / 2).testBit i <;>
    cases Nat.testBit 0xEDB88320 i <;> rfl

theorem crcRoundIter_xor (n a b : Nat) :
    crcRound^[n] (a ^^^ b) = crcRound^[n] a ^^^ crcRound^[n] b := by
  induction n generalizing a b with
  | zero => rfl
  | succ k ih =>
    rw [Function.iterate_succ_apply, Function.iterate_succ_apply,
      Function.iterate_succ_apply, crcRound_xor]
    exact ih (crcRound a) (crcRound b)

theorem crcByte_xor (a b x y : Nat) :
    crcByte (a ^^^ b) (x ^^^ y) = crcByte a x ^^^ crcByte b y := by
  unfold crcByte
  rw [xor_mix]
  exact crcRoundIter_xor 8 (a ^^^ x) (b ^^^ y)

theorem crcRound_lt {s : Nat} (h : s < 2 ^ 32) : crcRound s < 2 ^ 32 := by
  unfold crcRound
  split
  · exact Nat.xor_lt_two_pow (by omega) (by norm_num)
  · omega

theorem crcRound_ne_zero {s : Nat} (h0 : s ≠ 0) (h32 : s < 2 ^ 32) :
    crcRound s ≠ 0 := by
  unfold crcRound
  split
  · intro hz
    have hP : Nat.testBit 0xEDB88320 31 = true := by decide
    have hs2 : Nat.testBit (s / 2) 31 = false :=
      Nat.testBit_lt_two_pow (by omega)
    have h31 := congrArg (fun x => Nat.testBit x 31) hz
    simp only [Nat.testBit_xor, hs2, hP, Nat.zero_testBit, Bool.false_xor] at h31
    exact Bool.noConfusion h31
  · rename_i hpar
    omega

theorem crcRoundIter_lt (n : Nat) : ∀ s, s < 2 ^ 32 → crcRound^[n] s < 2 ^ 32 := by
  induction n with
  | zero => intro s hs; simpa using hs
  | succ k ih =>
    intro s hs
    rw [Function.iterate_succ_apply]
    exact ih (crcRound s) (crcRound_lt hs)

theorem crcRoundIter_pres (n : Nat) :
    ∀ s, s ≠ 0 → s < 2 ^ 32 → crcRound^[n] s ≠ 0 ∧ crcRound^[n] s < 2 ^ 32 := by
  induction n with
  | zero => intro s h0 h32; simpa using ⟨h0, h32⟩
  | succ k ih =>
    intro s h0 h32
    rw [Function.iterate_succ_apply]
    exact ih (crcRound s) (crcRound_ne_zero h0 h32) (crcRound_lt h32)

theorem foldl_crcByte_ne (rest : List Nat) :
    ∀ a t : Nat, t ≠ 0 → t < 2 ^ 32 →
      rest.foldl crcByte (a ^^^ t) ≠ rest.foldl crcByte a := by
  induction rest with
  | nil =>
    intro a t h0 _ h
    exact h0 (xor_cancel_left a t h)
  | cons b bs ih =>
    intro a t h0 h32
    simp only [List.foldl_cons]
    have hb : crcByte (a ^^^ t) b = crcByte a b ^^^ crcByte t 0 := by
      have h1 := crcByte_xor a t b 0
      rwa [Nat.xor_zero] at h1
    rw [hb]
    have ht : crcByte t 0 ≠ 0 ∧ crcByte t 0 < 2 ^ 32 := by
      unfold crcByte
      rw [Nat.xor_zero]
      exact crcRoundIter_pres 8 t h0 h32
    exact ih (crcByte a b) (crcByte t 0) ht.1 ht.2

theorem getD_eq_getElem {d : List Nat} {i : Nat} (hi : i < d.length) :
    d.getD i 0 = d[i] := by
  rw [List.getD_eq_getElem?_getD, List.getElem?_eq_getElem hi]
  rfl

/-- CRC-32 detects any change of a single byte (in particular any single
bit flip): xoring a nonzero value into one position changes the checksum. -/
theorem crc32_set_ne (d : List Nat) (i δ : Nat) (hi : i < d.length)
    (hδ0 : δ ≠ 0) (hδ32 : δ < 2 ^ 32) :
    crc32 (d.set i (d.getD i 0 ^^^ δ)) ≠ crc32 d := by
  have hset : d.set i (d.getD i 0 ^^^ δ)
      = d.take i ++ (d.getD i 0 ^^^ δ) :: d.drop (i + 1) := by
    rw [List.set_eq_take_append_cons_drop, if_pos hi]
  have hd : d = d.take i ++ d.getD i 0 :: d.drop (i + 1) := by
    conv_lhs => rw [← List.take_append_drop i d, List.drop_eq_getElem_cons hi]
    rw [getD_eq_getElem hi]
  intro hcon
  unfold crc32 at hcon
  have hcon2 := xor_right_cancel hcon
  rw [hset] at hcon2
  conv_rhs at hcon2 => rw [hd]
  rw [List.foldl_append, List.foldl_append, List.foldl_cons, List.foldl_cons]
    at hcon2
  have hsplit : crcByte (List.foldl crcByte 0xFFFFFFFF (d.take i))
      (d.getD i 0 ^^^ δ)
      = crcByte (List.foldl crcByte 0xFFFFFFFF (d.take i)) (d.getD i 0)
        ^^^ crcByte 0 δ := by
    have h1 := crcByte_xor (List.foldl crcByte 0xFFFFFFFF (d.take i)) 0
      (d.getD i 0) δ
    rwa [Nat.xor_zero] at h1
  rw [hsplit] at hcon2
  have ht : crcByte 0 δ ≠ 0 ∧ crcByte 0 δ < 2 ^ 32 := by
    unfold crcByte
    rw [Nat.zero_xor]
    exact crcRoundIter_pres 8 δ hδ0 hδ32
  exact foldl_crcByte_ne (d.drop (i + 1)) _ (crcByte 0 δ) ht.1 ht.2 hcon2

theorem crc32_lt (d : List Nat) (hb : ∀ b ∈ d, b < 2 ^ 32) :
    crc32 d < 2 ^ 32 := by
  unfold crc32
  refine Nat.xor_lt_two_pow ?_ (by norm_num)
  have hstep : ∀ (l : List Nat) (s : Nat), s < 2 ^ 32 → (∀ b ∈ l, b < 2 ^ 32) →
      l.foldl crcByte s < 2 ^ 32 := by
    intro l
    induction l with
    | nil => intro s hs _; simpa using hs
    | cons b bs ih =>
      intro s hs hbl
      simp only [List.foldl_cons]
      refine ih (crcByte s b) ?_ (fun x hx => hbl x (by simp [hx]))
      unfold crcByte
      exact crcRoundIter_lt 8 _ (Nat.xor_lt_two_pow hs (hbl b (by simp)))
  exact hstep d 0xFFFFFFFF (by norm_num) hb

/-! ## Packet codec lemmas -/

theorem encPacket_length (t : Nat) (p : List Byte) :
    (encPacket t p).length = 8 + p.length := by
  simp [encPacket, be16, be32]
  omega

theorem packetDecode_valid (t : Nat) (p rest : List Byte)
    (ht : t < 2 ^ 16) (hp : 8 + p.length < 2 ^ 16) (hb : ∀ b ∈ p, b < 256) :
    packetDecode (encPacket t p ++ rest) = .ok (some ((t, p), 8 + p.length)) ∧
    (encPacket t p ++ rest).drop (8 + p.length) = rest := by
  obtain ⟨c, hc, hc32⟩ : ∃ c,
      crc32 ((8 + p.length) / 256 % 256 :: (8 + p.length) % 256 ::
        t / 256 % 256 :: t % 256 :: 0 :: 0 :: 0 :: 0 :: p) = c ∧ c < 2 ^ 32 := by
    refine ⟨_, rfl, crc32_lt _ ?_⟩
    intro b hbm
    simp at hbm
    rcases hbm with h | h | h | h | h | h
    · omega
    · omega
    · omega
    · omega
    · omega
    · exact lt_trans (hb b h) (by norm_num)
  have henc : encPacket t p ++ rest =
      [(8 + p.length) / 256 % 256, (8 + p.length) % 256, t / 256 % 256, t % 256,
       c / 2 ^ 24 % 256, c / 2 ^ 16 % 256, c / 2 ^ 8 % 256, c % 256] ++
        (p ++ rest) := by
    simp [encPacket, be16, be32, hc]
  have hlen : (encPacket t p ++ rest).length = 8 + p.length + rest.length := by
    rw [henc]; simp; omega
  have hpl : headerPacketLength (encPacket t p ++ rest) = 8 + p.length := by
    rw [henc]; simp [headerPacketLength]; omega
  have htyp : headerPayloadType (encPacket t p ++ rest) = t := by
    rw [henc]; simp [headerPayloadType]; omega
  have hcs : headerChecksum (encPacket t p ++ rest) = c := by
    rw [henc]; simp [headerChecksum]; omega
  have hzero : zeroChecksum (encPacket t p ++ rest) =
      [(8 + p.length) / 256 % 256, (8 + p.length) % 256, t / 256 % 256, t % 256,
       0, 0, 0, 0] ++ (p ++ rest) := by
    rw [henc]; simp [zeroChecksum]
  have hztake : (zeroChecksum (encPacket t p ++ rest)).take (8 + p.length) =
      (8 + p.length) / 256 % 256 :: (8 + p.length) % 256 ::
        t / 256 % 256 :: t % 256 :: 0 :: 0 :: 0 :: 0 :: p := by
    rw [hzero, List.take_append_eq_append_take,
      List.take_of_length_le (by simp),
      (by simp : (8 + p.length) -
        ([(8 + p.length) / 256 % 256, (8 + p.length) % 256, t / 256 % 256,
          t % 256, 0, 0, 0, 0] : List Byte).length = p.length),
      List.take_append_of_le_length (le_refl p.length), List.take_length]
    simp
  have hzdrop : (zeroChecksum (encPacket t p ++ rest)).drop 8 = p ++ rest := by
    rw [hzero]; simp
  constructor
  · rw [packetDecode.eq_def]
    rw [if_neg (by omega)]
    simp only [hpl, hcs, htyp]
    rw [(by omega : (8 + p.length + 2 ^ 64 - 8) % 2 ^ 64 = p.length)]
    rw [if_neg (by omega)]
    rw [hztake, hc, if_neg (by simp)]
    rw [hzdrop, List.take_append_of_le_length (le_refl p.length),
      List.take_length]
  · rw [henc]
    rw [List.drop_append_eq_append_drop]
    simp

theorem getElem?_flipAt_append (l rest : List Byte) (i k n : Nat) :
    (flipAt l i k ++ rest)[n]? =
      if i = n ∧ i < l.length then some (l.getD i 0 ^^^ 2 ^ k)
      else (l ++ rest)[n]? := by
  simp only [flipAt, List.getElem?_append, List.length_set, List.getElem?_set]
  by_cases hin : i = n
  · subst hin
    by_cases hil : i < l.length
    · simp [hil]
    · simp [hil]
  · simp [hin]

theorem getD_flipAt_append_ne (l rest : List Byte) {i n : Nat} (k : Nat)
    (hne : n ≠ i) :
    (flipAt l i k ++ rest).getD n 0 = (l ++ rest).getD n 0 := by
  rw [List.getD_eq_getElem?_getD, List.getD_eq_getElem?_getD,
    getElem?_flipAt_append, if_neg (by rintro ⟨rfl, -⟩; exact hne rfl)]

theorem getD_flipAt_append_eq (l rest : List Byte) {i : Nat} (k : Nat)
    (hi : i < l.length) :
    (flipAt l i k ++ rest).getD i 0 = l.getD i 0 ^^^ 2 ^ k := by
  rw [List.getD_eq_getElem?_getD, getElem?_flipAt_append, if_pos ⟨rfl, hi⟩]
  rfl

theorem getD_append_left {l rest : List Byte} {i : Nat} (hi : i < l.length) :
    (l ++ rest).getD i 0 = l.getD i 0 := by
  rw [List.getD_eq_getElem?_getD, List.getD_eq_getElem?_getD,
    List.getElem?_append, if_pos hi]

theorem zeroChecksum_getElem? (X : List Byte) (h8 : 8 ≤ X.length) (n : Nat) :
    (zeroChecksum X)[n]? =
      if n < 4 then X[n]? else if n < 8 then some 0 else X[n]? := by
  simp only [zeroChecksum]
  have hl : (X.take 4 ++ ([0, 0, 0, 0] : List Byte)).length = 8 := by
    simp
    omega
  rw [List.getElem?_append]
  rw [hl]
  by_cases h4 : n < 4
  · rw [if_pos (by omega), if_pos h4, List.getElem?_append,
      if_pos (by simp; omega), List.getElem?_take, if_pos h4]
  · by_cases h8n : n < 8
    · rw [if_pos (by omega), if_neg h4, if_pos h8n, List.getElem?_append,
        if_neg (by simp; omega)]
      rw [show ([0, 0, 0, 0] : List Byte) = List.replicate 4 0 from rfl,
        List.getElem?_replicate,
        if_pos (by simp; omega)]
    · rw [if_neg (by omega), if_neg h4, if_neg h8n, List.getElem?_drop,
        (by omega : 8 + (n - 8) = n)]

theorem zeroChecksum_flip_mid (l rest : List Byte) (i k : Nat)
    (h8 : 8 ≤ l.length) (h4i : 4 ≤ i) (hi8 : i < 8) :
    zeroChecksum (flipAt l i k ++ rest) = zeroChecksum (l ++ rest) := by
  apply List.ext_getElem?
  intro n
  have hlen : 8 ≤ (flipAt l i k ++ rest).length := by simp [flipAt]; omega
  have hlen2 : 8 ≤ (l ++ rest).length := by simp; omega
  rw [zeroChecksum_getElem? _ hlen, zeroChecksum_getElem? _ hlen2]
  by_cases h4 : n < 4
  · rw [if_pos h4, if_pos h4, getElem?_flipAt_append,
      if_neg (by rintro ⟨rfl, -⟩; omega)]
  · by_cases h8n : n < 8
    · rw [if_neg h4, if_neg h4, if_pos h8n, if_pos h8n]
    · rw [if_neg h4, if_neg h4, if_neg h8n, if_neg h8n,
        getElem?_flipAt_append, if_neg (by rintro ⟨rfl, -⟩; omega)]

theorem zeroChecksum_flip_out (l rest : List Byte) (i k : Nat)
    (h8 : 8 ≤ l.length) (hil : i < l.length) (hout : i < 4 ∨ 8 ≤ i) :
    zeroChecksum (flipAt l i k ++ rest) =
      flipAt (zeroChecksum (l ++ rest)) i k := by
  have hzlen : (zeroChecksum (l ++ rest)).length = l.length + rest.length := by
    simp [zeroChecksum]
    omega
  have hzget : (zeroChecksum (l ++ rest)).getD i 0 = l.getD i 0 := by
    rw [List.getD_eq_getElem?_getD,
      zeroChecksum_getElem? _ (by simp; omega) i]
    rcases hout with h | h
    · rw [if_pos h, List.getElem?_append, if_pos hil,
        ← List.getD_eq_getElem?_getD]
    · rw [if_neg (by omega), if_neg (by omega), List.getElem?_append,
        if_pos hil, ← List.getD_eq_getElem?_getD]
  apply List.ext_getElem?
  intro n
  have hlen : 8 ≤ (flipAt l i k ++ rest).length := by simp [flipAt]; omega
  rw [zeroChecksum_getElem? _ hlen]
  conv_rhs => rw [flipAt]
  rw [List.getElem?_set]
  by_cases hin : i = n
  · subst hin
    rcases hout with h | h
    · rw [if_pos h, getElem?_flipAt_append, if_pos ⟨rfl, hil⟩, if_pos rfl,
        if_pos (by omega), hzget]
    · rw [if_neg (by omega), if_neg (by omega), getElem?_flipAt_append,
        if_pos ⟨rfl, hil⟩, if_pos rfl, if_pos (by omega), hzget]
  · rw [if_neg hin]
    rw [List.getD_eq_getElem?_getD] at hzget
    by_cases h4 : n < 4
    · rw [if_pos h4, getElem?_flipAt_append,
        if_neg (by rintro ⟨rfl, -⟩; exact hin rfl),
        zeroChecksum_getElem? _ (by simp; omega), if_pos h4]
    · by_cases h8n : n < 8
      · rw [if_neg h4, if_pos h8n,
          zeroChecksum_getElem? _ (by simp; omega), if_neg h4, if_pos h8n]
      · rw [if_neg h4, if_neg h8n, getElem?_flipAt_append,
          if_neg (by rintro ⟨rfl, -⟩; exact hin rfl),
          zeroChecksum_getElem? _ (by simp; omega), if_neg h4, if_neg h8n]

theorem packetDecode_flipped (t : Nat) (p rest : List Byte) (i k : Nat)
    (ht : t < 2 ^ 16) (hp : 8 + p.length < 2 ^ 16) (hb : ∀ b ∈ p, b < 256)
    (hi2 : 2 ≤ i) (hik : i < 8 + p.length) (hk : k < 8) :
    packetDecode (flipAt (encPacket t p) i k ++ rest) = .error () := by
  obtain ⟨c, hc, hc32⟩ : ∃ c,
      crc32 ((8 + p.length) / 256 % 256 :: (8 + p.length) % 256 ::
        t / 256 % 256 :: t % 256 :: 0 :: 0 :: 0 :: 0 :: p) = c ∧ c < 2 ^ 32 := by
    refine ⟨_, rfl, crc32_lt _ ?_⟩
    intro b hbm
    simp at hbm
    rcases hbm with h | h | h | h | h | h
    · omega
    · omega
    · omega
    · omega
    · omega
    · exact lt_trans (hb b h) (by norm_num)
  have henc : encPacket t p ++ rest =
      [(8 + p.length) / 256 % 256, (8 + p.length) % 256, t / 256 % 256, t % 256,
       c / 2 ^ 24 % 256, c / 2 ^ 16 % 256, c / 2 ^ 8 % 256, c % 256] ++
        (p ++ rest) := by
    simp [encPacket, be16, be32, hc]
  have hel : (encPacket t p).length = 8 + p.length := encPacket_length t p
  have hlenf : (flipAt (encPacket t p) i k ++ rest).length
      = 8 + p.length + rest.length := by
    simp [flipAt, hel]
  have hg : ∀ n, n ≠ i →
      (flipAt (encPacket t p) i k ++ rest).getD n 0
        = (encPacket t p ++ rest).getD n 0 :=
    fun n hn => getD_flipAt_append_ne _ _ k hn
  have h0 : (encPacket t p ++ rest).getD 0 0 = (8 + p.length) / 256 % 256 := by
    rw [henc]; rfl
  have h1 : (encPacket t p ++ rest).getD 1 0 = (8 + p.length) % 256 := by
    rw [henc]; rfl
  have h4 : (encPacket t p ++ rest).getD 4 0 = c / 2 ^ 24 % 256 := by
    rw [henc]; rfl
  have h5 : (encPacket t p ++ rest).getD 5 0 = c / 2 ^ 16 % 256 := by
    rw [henc]; rfl
  have h6 : (encPacket t p ++ rest).getD 6 0 = c / 2 ^ 8 % 256 := by
    rw [henc]; rfl
  have h7 : (encPacket t p ++ rest).getD 7 0 = c % 256 := by
    rw [henc]; rfl
  have hztake : (zeroChecksum (encPacket t p ++ rest)).take (8 + p.length) =
      (8 + p.length) / 256 % 256 :: (8 + p.length) % 256 ::
        t / 256 % 256 :: t % 256 :: 0 :: 0 :: 0 :: 0 :: p := by
    rw [henc]
    rw [show zeroChecksum
        ([(8 + p.length) / 256 % 256, (8 + p.length) % 256, t / 256 % 256,
          t % 256, c / 2 ^ 24 % 256, c / 2 ^ 16 % 256, c / 2 ^ 8 % 256,
          c % 256] ++ (p ++ rest)) =
        [(8 + p.length) / 256 % 256, (8 + p.length) % 256, t / 256 % 256,
         t % 256, 0, 0, 0, 0] ++ (p ++ rest) by simp [zeroChecksum]]
    rw [List.take_append_eq_append_take, List.take_of_length_le (by simp),
      (by simp : (8 + p.length) -
        ([(8 + p.length) / 256 % 256, (8 + p.length) % 256, t / 256 % 256,
          t % 256, 0, 0, 0, 0] : List Byte).length = p.length),
      List.take_append_of_le_length (le_refl p.length), List.take_length]
    simp
  have hpl' : headerPacketLength (flipAt (encPacket t p) i k ++ rest)
      = 8 + p.length := by
    simp only [headerPacketLength]
    rw [hg 0 (by omega), hg 1 (by omega), h0, h1]
    omega
  have he4 : (encPacket t p).getD 4 0 = c / 2 ^ 24 % 256 :=
    (getD_append_left (show (4 : Nat) < (encPacket t p).length by omega)).symm.trans h4
  have he5 : (encPacket t p).getD 5 0 = c / 2 ^ 16 % 256 :=
    (getD_append_left (show (5 : Nat) < (encPacket t p).length by omega)).symm.trans h5
  have he6 : (encPacket t p).getD 6 0 = c / 2 ^ 8 % 256 :=
    (getD_append_left (show (6 : Nat) < (encPacket t p).length by omega)).symm.trans h6
  have he7 : (encPacket t p).getD 7 0 = c % 256 :=
    (getD_append_left (show (7 : Nat) < (encPacket t p).length by omega)).symm.trans h7
  have hk1 : 0 < 2 ^ k := Nat.two_pow_pos k
  have hk2 : 2 ^ k < 256 := by
    calc 2 ^ k < 2 ^ 8 := Nat.pow_lt_pow_right (by norm_num) hk
    _ = 256 := by norm_num
  have hne : headerChecksum (flipAt (encPacket t p) i k ++ rest) ≠
      crc32 ((zeroChecksum (flipAt (encPacket t p) i k ++ rest)).take
        (8 + p.length)) := by
    by_cases hmid : 4 ≤ i ∧ i < 8
    · obtain ⟨hi4, hi8⟩ := hmid
      have hz : zeroChecksum (flipAt (encPacket t p) i k ++ rest)
          = zeroChecksum (encPacket t p ++ rest) :=
        zeroChecksum_flip_mid _ _ i k (by omega) hi4 hi8
      have hcal : crc32 ((zeroChecksum (flipAt (encPacket t p) i k ++ rest)).take
          (8 + p.length)) = c := by
        rw [hz, hztake, hc]
      rw [hcal]
      have hcsum : c = ((c / 2 ^ 24 % 256 * 256 + c / 2 ^ 16 % 256) * 256 +
          c / 2 ^ 8 % 256) * 256 + c % 256 := by omega
      interval_cases i
      · simp only [headerChecksum]
        rw [hg 5 (by omega), hg 6 (by omega), hg 7 (by omega),
          getD_flipAt_append_eq _ _ k (by omega), he4, h5, h6, h7]
        have hx : c / 2 ^ 24 % 256 ^^^ 2 ^ k < 256 :=
          Nat.xor_lt_two_pow (n := 8) (by omega) (by omega)
        intro heq
        have hdig : c / 2 ^ 24 % 256 ^^^ 2 ^ k = c / 2 ^ 24 % 256 := by omega
        have := xor_cancel_left (c / 2 ^ 24 % 256) (2 ^ k) hdig
        omega
      · simp only [headerChecksum]
        rw [hg 4 (by omega), hg 6 (by omega), hg 7 (by omega),
          getD_flipAt_append_eq _ _ k (by omega), h4, he5, h6, h7]
        have hx : c / 2 ^ 16 % 256 ^^^ 2 ^ k < 256 :=
          Nat.xor_lt_two_pow (n := 8) (by omega) (by omega)
        intro heq
        have hdig : c / 2 ^ 16 % 256 ^^^ 2 ^ k = c / 2 ^ 16 % 256 := by omega
        have := xor_cancel_left (c / 2 ^ 16 % 256) (2 ^ k) hdig
        omega
      · simp only [headerChecksum]
        rw [hg 4 (by omega), hg 5 (by omega), hg 7 (by omega),
          getD_flipAt_append_eq _ _ k (by omega), h4, h5, he6, h7]
        have hx : c / 2 ^ 8 % 256 ^^^ 2 ^ k < 256 :=
          Nat.xor_lt_two_pow (n := 8) (by omega) (by omega)
        intro heq
        have hdig : c / 2 ^ 8 % 256 ^^^ 2 ^ k = c / 2 ^ 8 % 256 := by omega
        have := xor_cancel_left (c / 2 ^ 8 % 256) (2 ^ k) hdig
        omega
      · simp only [headerChecksum]
        rw [hg 4 (by omega), hg 5 (by omega), hg 6 (by omega),
          getD_flipAt_append_eq _ _ k (by omega), h4, h5, h6, he7]
        have hx : c % 256 ^^^ 2 ^ k < 256 :=
          Nat.xor_lt_two_pow (n := 8) (by omega) (by omega)
        intro heq
        have hdig : c % 256 ^^^ 2 ^ k = c % 256 := by omega
        have := xor_cancel_left (c % 256) (2 ^ k) hdig
        omega
    · have hout : i < 4 ∨ 8 ≤ i := by omega
      have hrec : headerChecksum (flipAt (encPacket t p) i k ++ rest) = c := by
        simp only [headerChecksum]
        rw [hg 4 (by omega), hg 5 (by omega), hg 6 (by omega), hg 7 (by omega),
          h4, h5, h6, h7]
        omega
      have hz := zeroChecksum_flip_out (encPacket t p) rest i k (by omega)
        (by omega) hout
      have hzt : (zeroChecksum (flipAt (encPacket t p) i k ++ rest)).take
          (8 + p.length) =
          ((zeroChecksum (encPacket t p ++ rest)).take (8 + p.length)).set i
            ((zeroChecksum (encPacket t p ++ rest)).getD i 0 ^^^ 2 ^ k) := by
        rw [hz, flipAt, List.set_take]
      have hzget2 : (zeroChecksum (encPacket t p ++ rest)).getD i 0 =
          ((zeroChecksum (encPacket t p ++ rest)).take (8 + p.length)).getD
            i 0 := by
        rw [List.getD_eq_getElem?_getD, List.getD_eq_getElem?_getD,
          List.getElem?_take, if_pos hik]
      rw [hrec, hzt, hzget2, hztake]
      intro heq
      exact crc32_set_ne _ i (2 ^ k) (by simp; omega) (by omega)
        (by omega) (hc ▸ heq.symm)
  rw [packetDecode.eq_def]
  rw [if_neg (by omega)]
  simp only [hpl']
  rw [(by omega : (8 + p.length + 2 ^ 64 - 8) % 2 ^ 64 = p.length)]
  rw [if_neg (by omega)]
  rw [if_pos hne]

/-! ## C5: checksum detection for the example packet codec -/

/-- C5 as stated is false: a single-bit flip inside the `packet_length`
field need not produce a `Decode(Checksum)` error. Flipping bit 7 of
byte 0 of the encoding of the packet (type 3, payload `[65]`) turns
`packet_length` into 32777: the decoder computes a payload length far
beyond the remaining bytes, reports `Ok(None)` and waits for more input,
and the stream ends as residual bytes (`BytesRemainingOnStream` at the
driver), not as a checksum error. -/
theorem checksum_claim_cex :
    decodePacketsF 2 (flipAt (encPacket 3 [65]) 0 7) = ([], .residual) ∧
    StreamEnd.residual ≠ StreamEnd.checksum :=
  ⟨by decide, by decide⟩

/-- C5 (amended): for every stream formed by encoding a sequence of valid
packets, flipping any single bit of any one packet outside its
`packet_length` field (byte positions 0 and 1) makes decoding the stream
produce the packets before the flipped one, in order, followed by exactly
one `Decode(Checksum)` error at that packet's boundary. -/
theorem checksum_detection (pre post : List RawFrame) (q : RawFrame)
    (i k : Nat) (hvp : ∀ x ∈ pre, ValidPacket x) (hvq : ValidPacket q)
    (hi2 : 2 ≤ i) (hik : i < 8 + q.2.length) (hk : k < 8) :
    decodePacketsF (pre.length + 1)
      (encPackets pre ++ flipAt (encPacket q.1 q.2) i k ++ encPackets post)
      = (pre, .checksum) := by
  induction pre with
  | nil =>
    obtain ⟨ht, hp, hb⟩ := hvq
    simp only [encPackets, List.map_nil, List.flatten_nil, List.nil_append,
      List.length_nil]
    rw [decodePacketsF,
      packetDecode_flipped q.1 q.2 _ i k ht hp hb hi2 hik hk]
  | cons q0 tail ih =>
    obtain ⟨ht0, hp0, hb0⟩ := hvp q0 (by simp)
    have hvt : ∀ x ∈ tail, ValidPacket x := fun x hx => hvp x (by simp [hx])
    have hstream : encPackets (q0 :: tail) ++
        flipAt (encPacket q.1 q.2) i k ++ encPackets post
        = encPacket q0.1 q0.2 ++ (encPackets tail ++
            flipAt (encPacket q.1 q.2) i k ++ encPackets post) := by
      simp [encPackets, List.append_assoc]
    rw [hstream, (by simp : (q0 :: tail).length + 1 = tail.length + 1 + 1)]
    have hval := packetDecode_valid q0.1 q0.2
      (encPackets tail ++ flipAt (encPacket q.1 q.2) i k ++ encPackets post)
      ht0 hp0 hb0
    rw [decodePacketsF, hval.1]
    simp only [hval.2, ih hvt]

/-- Witness for `checksum_detection`: flipping the low bit of the first
payload byte of a one-packet stream yields no frames and a checksum
error. -/
theorem checksum_detection_witness :
    decodePacketsF 1
      (encPackets [] ++ flipAt (encPacket 3 [65]) 8 0 ++ encPackets [])
      = ([], .checksum) :=
  checksum_detection [] [] (3, [65]) 8 0 (by intro x hx; simp at hx)
    ⟨by norm_num, by norm_num, by decide⟩ (by norm_num) (by norm_num)
    (by norm_num)


/-! ## C1: framing completeness

The driver-level completeness statement and its supporting simulation
argument for the `Lines` codec: a measure-based induction over the
machine, with `LinesInv` tying the machine to the frames it still owes. -/

/-! ## Buffer bookkeeping lemmas for the Lines completeness proof -/

theorem run_succ_progress {σ F E : Type} (cod : Codec σ F E) {m m' : Machine σ}
    (fuel : Nat) (h : maybeNext cod m = (m', .progress)) :
    run cod (fuel + 1) m = run cod fuel m' := by
  rw [run, h]

theorem run_succ_frame {σ F E : Type} (cod : Codec σ F E) {m m' : Machine σ}
    {f : F} (fuel : Nat) (h : maybeNext cod m = (m', .frame f)) :
    run cod (fuel + 1) m = (run cod fuel m').cons f := by
  rw [run, h]

theorem run_succ_fail {σ F E : Type} (cod : Codec σ F E) {m m' : Machine σ}
    {e : ReadErrorK E} (fuel : Nat) (h : maybeNext cod m = (m', .fail e)) :
    run cod (fuel + 1) m = .failed [] e := by
  rw [run, h]

theorem run_succ_terminal {σ F E : Type} (cod : Codec σ F E) {m m' : Machine σ}
    (fuel : Nat) (h : maybeNext cod m = (m', .terminal)) :
    run cod (fuel + 1) m = .done [] := by
  rw [run, h]

theorem writeBack_self {buf : List Byte} {tc idx : Nat} (h1 : tc ≤ idx)
    (h2 : idx ≤ buf.length) :
    writeBack buf tc idx ((buf.drop tc).take (idx - tc)) = buf := by
  have h : buf.take tc ++ (buf.drop tc).take (idx - tc) = buf.take idx := by
    rw [← List.take_add]
    congr 1
    omega
  rw [writeBack, h, List.take_append_drop]

theorem pending_drop {buf : List Byte} {tc idx n : Nat} (h1 : tc + n ≤ idx) :
    (buf.drop (tc + n)).take (idx - (tc + n)) =
      ((buf.drop tc).take (idx - tc)).drop n := by
  rw [List.drop_take, List.drop_drop]
  congr 1
  omega

theorem copyWithin_pending {buf : List Byte} {tc idx : Nat} (h1 : tc ≤ idx)
    (h2 : idx ≤ buf.length) :
    (copyWithin buf tc idx).take (idx - tc) = (buf.drop tc).take (idx - tc) := by
  rw [copyWithin, List.take_append_of_le_length]
  · rw [List.take_take, Nat.min_self]
  · rw [List.length_take, List.length_drop]
    omega

theorem writeAt_pending {buf bs : List Byte} {tc idx : Nat} (h1 : tc ≤ idx)
    (h2 : idx ≤ buf.length) :
    ((writeAt buf idx bs).drop tc).take (idx + bs.length - tc) =
      (buf.drop tc).take (idx - tc) ++ bs := by
  have hA : (buf.take idx).length = idx := by
    rw [List.length_take]
    omega
  have hdrop : (writeAt buf idx bs).drop tc =
      (buf.drop tc).take (idx - tc) ++ (bs ++ buf.drop (idx + bs.length)) := by
    rw [writeAt, List.append_assoc, List.drop_append_of_le_length (by omega),
      List.drop_take]
  rw [hdrop, List.take_append_eq_append_take, List.length_take, List.length_drop,
    List.take_append_eq_append_take]
  have hlen : min (idx - tc) (buf.length - tc) = idx - tc := by omega
  rw [hlen, List.take_of_length_le (by rw [List.length_take, List.length_drop]; omega),
    List.take_of_length_le (le_refl bs.length |>.trans (by omega)),
    show idx + bs.length - tc - (idx - tc) - bs.length = 0 by omega,
    List.take_zero, List.append_nil]

theorem getD_mem {l : List Byte} {j : Nat} (h : j < l.length) :
    l.getD j 0 ∈ l := by
  rw [List.getD_eq_getElem?_getD, List.getElem?_eq_getElem h]
  exact List.getElem_mem h

theorem seen_le_first10 {pending : List Byte} {seen q : Nat}
    (hq : q < pending.length) (h10 : pending.getD q 0 = 10)
    (hs10 : 10 ∉ pending.take seen) : seen ≤ q := by
  by_contra hlt
  push_neg at hlt
  apply hs10
  have hql : q < (pending.take seen).length := by
    rw [List.length_take]
    omega
  have : (pending.take seen).getD q 0 = 10 := by
    rw [List.getD_eq_getElem?_getD, List.getElem?_eq_getElem hql, List.getElem_take,
      ← List.getElem?_eq_getElem (by omega), ← List.getD_eq_getElem?_getD, h10]
  rw [← this]
  exact getD_mem hql

theorem no10_of_short_pfx {x pending k r : List Byte}
    (h10 : 10 ∉ x) (heq : pending ++ k = x ++ 13 :: 10 :: r)
    (hlen : pending.length ≤ x.length + 1) : 10 ∉ pending := by
  have heq2 : pending ++ k = (x ++ [13]) ++ 10 :: r := by
    rw [heq, List.append_assoc]
    rfl
  have hp : pending = (x ++ [13]).take pending.length :=
    calc pending = (pending ++ k).take pending.length := by
          rw [List.take_append_of_le_length (le_refl _), List.take_length]
      _ = ((x ++ [13]) ++ 10 :: r).take pending.length := by rw [heq2]
      _ = (x ++ [13]).take pending.length :=
          List.take_append_of_le_length (by simp; omega)
  intro hmem
  rw [hp] at hmem
  rcases List.mem_append.mp (List.mem_of_mem_take hmem) with h | h
  · exact h10 h
  · simp at h

theorem prefix_split {x pending k r : List Byte}
    (heq : pending ++ k = x ++ 13 :: 10 :: r)
    (hlen : x.length + 2 ≤ pending.length) :
    ∃ t, pending = x ++ 13 :: 10 :: t ∧ t ++ k = r := by
  have heq2 : pending ++ k = (x ++ [13, 10]) ++ r := by
    rw [heq, List.append_assoc]
    rfl
  have hxlen : (x ++ [13, 10]).length = x.length + 2 := by
    simp
  refine ⟨pending.drop (x.length + 2), ?_, ?_⟩
  · have h1 : pending.take (x.length + 2) = x ++ [13, 10] :=
      calc pending.take (x.length + 2)
          = (pending ++ k).take (x.length + 2) :=
            (List.take_append_of_le_length hlen).symm
        _ = ((x ++ [13, 10]) ++ r).take (x.length + 2) := by rw [heq2]
        _ = (x ++ [13, 10]).take (x.length + 2) :=
            List.take_append_of_le_length (by simp)
        _ = x ++ [13, 10] := List.take_of_length_le (by simp)
    conv_lhs => rw [← List.take_append_drop (x.length + 2) pending]
    rw [h1, List.append_assoc]
    rfl
  · have h2 : pending.drop (x.length + 2) ++ k = (pending ++ k).drop (x.length + 2) := by
      rw [List.drop_append_of_le_length hlen]
    rw [h2, heq2, List.drop_append_eq_append_drop, ← hxlen, List.drop_length,
      List.nil_append, hxlen, Nat.sub_self, List.drop_zero]

theorem linesDecode_encLine {x tail : List Byte} {seen : Nat}
    (h10 : 10 ∉ x) (hs10 : 10 ∉ (x ++ 13 :: 10 :: tail).take seen) :
    linesDecodeLoop (x ++ 13 :: 10 :: tail) seen = (0, some (x, x.length + 2)) := by
  have hq : x.length + 1 < (x ++ 13 :: 10 :: tail).length := by
    simp
  have h10q : (x ++ 13 :: 10 :: tail).getD (x.length + 1) 0 = 10 := by
    rw [List.getD_eq_getElem?_getD, List.getElem?_append_right (by omega)]
    simp
  have hfirst : ∀ j, j < x.length + 1 → (x ++ 13 :: 10 :: tail).getD j 0 ≠ 10 := by
    intro j hj
    by_cases hjx : j < x.length
    · rw [List.getD_eq_getElem?_getD, List.getElem?_append_left hjx,
        List.getElem?_eq_getElem hjx]
      intro hc
      exact h10 (by rw [← hc]; exact List.getElem_mem hjx)
    · have hje : j = x.length := by omega
      subst hje
      rw [List.getD_eq_getElem?_getD, List.getElem?_append_right (le_refl _)]
      simp
  have hse : seen ≤ x.length + 1 := seen_le_first10 hq h10q hs10
  have hrun := linesGo_found hq h10q hfirst ((x ++ 13 :: 10 :: tail).drop seen) seen
    rfl hse
  rw [linesDecodeLoop, hrun]
  have htake1 : (x ++ 13 :: 10 :: tail).take (x.length + 1) = x ++ [13] := by
    rw [List.take_append_eq_append_take, List.take_of_length_le (by omega)]
    simp
  have htake0 : (x ++ 13 :: 10 :: tail).take (x.length + 1 - 1) = x := by
    rw [List.take_append_eq_append_take, Nat.add_sub_cancel,
      List.take_of_length_le (le_refl _), Nat.sub_self, List.take_zero,
      List.append_nil]
  rw [htake1, List.getLast?_concat, if_pos rfl, htake0]

theorem linesDecode_no10 {src : List Byte} {seen : Nat} (h10 : 10 ∉ src)
    (hseen : seen ≤ src.length) :
    linesDecodeLoop src seen = (src.length, none) := by
  have hno : ∀ j, j < src.length → src.getD j 0 ≠ 10 := by
    intro j hj hc
    exact h10 (by rw [← hc]; exact getD_mem hj)
  rw [linesDecodeLoop]
  exact linesGo_none hno (src.drop seen) seen rfl hseen

theorem expectedOut_cons (x : List Byte) (todo : List (List Byte))
    (residue : List Byte) :
    (expectedOut todo residue).cons x = expectedOut (x :: todo) residue := by
  rw [expectedOut, expectedOut]
  split_ifs <;> rfl

theorem pending_lt_L {L : Nat} {residue : List Byte} {todo : List (List Byte)}
    {m : Machine Nat} (inv : LinesInv L residue todo m)
    (hxs : ∀ x ∈ todo, 10 ∉ x ∧ x.length + 2 ≤ L)
    (hres10 : 10 ∉ residue) (hreslen : residue.length < L)
    (h10p : 10 ∉ m.rs.pending) :
    m.rs.pending.length < L := by
  cases todo with
  | nil =>
    have hstream : m.rs.pending ++ m.chunks.flatten = residue := by
      simpa using inv.hstream
    have hle : m.rs.pending.length ≤ residue.length := by
      rw [← hstream]
      simp
    omega
  | cons x todo' =>
    have heq : m.rs.pending ++ m.chunks.flatten
        = x ++ 13 :: 10 :: ((todo'.map encLine).flatten ++ residue) := by
      rw [inv.hstream]
      simp [encLine]
    by_cases hlong : x.length + 2 ≤ m.rs.pending.length
    · exfalso
      obtain ⟨t, hpend, _⟩ := prefix_split heq hlong
      apply h10p
      rw [hpend]
      simp
    · have := (hxs x (by simp)).2
      omega

theorem lines_next_frame {L : Nat} {residue x : List Byte}
    {todo' : List (List Byte)} {m : Machine Nat}
    (inv : LinesInv L residue (x :: todo') m) (hx10 : 10 ∉ x)
    (hsh : m.rs.shift = false) (hfr : m.rs.is_framable = true)
    (hlong : x.length + 2 ≤ m.rs.pending.length) :
    ∃ m', maybeNext linesCodec m = (m', .frame x) ∧
      LinesInv L residue todo' m' ∧ linesMeasure m' + 6 ≤ linesMeasure m := by
  obtain ⟨hbuf, htci, hiL, hstream, hchunks, hseen, hseen10, hnoframe, heofi,
    hroom⟩ := inv
  have hiB : m.rs.index ≤ m.rs.buffer.length := by
    rw [hbuf]
    exact hiL
  have hplen : m.rs.pending.length = m.rs.index - m.rs.total_consumed :=
    pending_length htci hiB
  have heq : m.rs.pending ++ m.chunks.flatten
      = x ++ 13 :: 10 :: ((todo'.map encLine).flatten ++ residue) := by
    rw [hstream]
    simp [encLine]
  obtain ⟨t, hpend, ht⟩ := prefix_split heq hlong
  have hdl : linesDecodeLoop m.rs.pending m.codec = (0, some (x, x.length + 2)) := by
    rw [hpend]
    exact linesDecode_encLine hx10 (by rw [← hpend]; exact hseen10)
  have hwb : writeBack m.rs.buffer m.rs.total_consumed m.rs.index m.rs.pending
      = m.rs.buffer := by
    rw [ReadState.pending]
    exact writeBack_self htci hiB
  have hstep : maybeNext linesCodec m =
      ({ codec := 0
         rs := { m.rs with
                   buffer := m.rs.buffer
                   total_consumed := m.rs.total_consumed + (x.length + 2) }
         chunks := m.chunks }, .frame x) := by
    by_cases heo : m.rs.eof = true
    · have h := maybeNext_eof_frame linesCodec m hsh hfr heo
        ((by simp only [linesCodec]; rw [hdl]) :
          linesCodec.decodeEof m.codec m.rs.pending
            = (0, m.rs.pending, .ok (some (x, x.length + 2))))
      rw [hwb] at h
      exact h
    · rw [Bool.not_eq_true] at heo
      have h := maybeNext_dec_frame linesCodec m hsh hfr heo
        ((by simp only [linesCodec]; rw [hdl]) :
          linesCodec.decode m.codec m.rs.pending
            = (0, m.rs.pending, .ok (some (x, x.length + 2))))
      rw [hwb] at h
      exact h
  have hnle : m.rs.total_consumed + (x.length + 2) ≤ m.rs.index := by
    omega
  have hP' : ReadState.pending
      { m.rs with buffer := m.rs.buffer
                  total_consumed := m.rs.total_consumed + (x.length + 2) } = t := by
    simp only [ReadState.pending]
    rw [pending_drop hnle]
    show m.rs.pending.drop (x.length + 2) = t
    rw [hpend]
    simp
  have hlen2 : m.rs.pending.length = x.length + (2 + t.length) := by
    rw [hpend]
    simp
    omega
  refine ⟨_, hstep, ⟨?_, ?_, ?_, ?_, ?_, ?_, ?_, ?_, ?_, ?_⟩, ?_⟩
  · simpa using hbuf
  · simpa using hnle
  · simpa using hiL
  · show ReadState.pending _ ++ _ = _
    rw [hP']
    exact ht
  · exact hchunks
  · simp
  · simp
  · exact fun h => Bool.noConfusion (hfr.symm.trans h)
  · exact heofi
  · exact fun h _ => Bool.noConfusion (hfr.symm.trans h)
  · rw [linesMeasure, linesMeasure]
    simp only [hP']
    simp only [hfr, hsh, Bool.false_eq_true, eq_self_iff_true, if_true, if_false]
    omega

theorem lines_next_none {L : Nat} {residue : List Byte} {todo : List (List Byte)}
    {m : Machine Nat} (inv : LinesInv L residue todo m)
    (h10p : 10 ∉ m.rs.pending)
    (hsh : m.rs.shift = false) (hfr : m.rs.is_framable = true)
    (heo : m.rs.eof = false) :
    ∃ m', maybeNext linesCodec m = (m', .progress) ∧
      LinesInv L residue todo m' ∧ linesMeasure m' + 1 ≤ linesMeasure m := by
  obtain ⟨hbuf, htci, hiL, hstream, hchunks, hseen, hseen10, hnoframe, heofi,
    hroom⟩ := inv
  have hiB : m.rs.index ≤ m.rs.buffer.length := by
    rw [hbuf]
    exact hiL
  have hdl : linesDecodeLoop m.rs.pending m.codec = (m.rs.pending.length, none) :=
    linesDecode_no10 h10p hseen
  have hwb : writeBack m.rs.buffer m.rs.total_consumed m.rs.index m.rs.pending
      = m.rs.buffer := by
    rw [ReadState.pending]
    exact writeBack_self htci hiB
  have hstep := maybeNext_dec_none linesCodec m hsh hfr heo
    ((by simp only [linesCodec]; rw [hdl]) :
      linesCodec.decode m.codec m.rs.pending
        = (m.rs.pending.length, m.rs.pending, .ok none))
  rw [hwb] at hstep
  have hP' : ReadState.pending
      { m.rs with buffer := m.rs.buffer
                  shift := decide (m.rs.index ≥ m.rs.buffer.length)
                  is_framable := false } = m.rs.pending := rfl
  refine ⟨_, hstep, ⟨?_, ?_, ?_, ?_, ?_, ?_, ?_, ?_, ?_, ?_⟩, ?_⟩
  · simpa using hbuf
  · simpa using htci
  · simpa using hiL
  · show ReadState.pending _ ++ _ = _
    rw [hP']
    exact hstream
  · exact hchunks
  · show m.rs.pending.length ≤ (ReadState.pending _).length
    rw [hP']
  · show 10 ∉ (ReadState.pending _).take (m.rs.pending.length)
    rw [hP', List.take_length]
    exact h10p
  · exact fun _ => ⟨rfl, h10p⟩
  · intro h
    exact Bool.noConfusion (heo.symm.trans h)
  · intro _ hs
    right
    have hlt := of_decide_eq_false hs
    rw [hbuf] at hlt
    show m.rs.index < L
    omega
  · rw [linesMeasure, linesMeasure]
    simp only [hP']
    by_cases hle : m.rs.index ≥ m.rs.buffer.length
    · have hd : decide (m.rs.index ≥ m.rs.buffer.length) = true := decide_eq_true hle
      simp only [hd, hfr, hsh, heo, Bool.false_eq_true, eq_self_iff_true, if_true,
        if_false]
      omega
    · have hd : decide (m.rs.index ≥ m.rs.buffer.length) = false :=
        decide_eq_false hle
      simp only [hd, hfr, hsh, heo, Bool.false_eq_true, eq_self_iff_true, if_true,
        if_false]
      omega

theorem lines_next_read {L : Nat} {residue : List Byte} {todo : List (List Byte)}
    {m : Machine Nat} (inv : LinesInv L residue todo m)
    (hxs : ∀ x ∈ todo, 10 ∉ x ∧ x.length + 2 ≤ L)
    (hres10 : 10 ∉ residue) (hreslen : residue.length < L)
    (hsh : m.rs.shift = false) (hfr : m.rs.is_framable = false) :
    ∃ m', maybeNext linesCodec m = (m', .progress) ∧
      LinesInv L residue todo m' ∧ linesMeasure m' + 1 ≤ linesMeasure m := by
  have h10p : 10 ∉ m.rs.pending := (inv.hnoframe hfr).2
  have hcodec : m.codec = m.rs.pending.length := (inv.hnoframe hfr).1
  have hplt : m.rs.pending.length < L := pending_lt_L inv hxs hres10 hreslen h10p
  obtain ⟨hbuf, htci, hiL, hstream, hchunks, hseen, hseen10, hnoframe, heofi,
    hroom⟩ := inv
  have hiB : m.rs.index ≤ m.rs.buffer.length := by
    rw [hbuf]
    exact hiL
  have hplen : m.rs.pending.length = m.rs.index - m.rs.total_consumed :=
    pending_length htci hiB
  have heo : m.rs.eof = false := by
    cases he : m.rs.eof with
    | false => rfl
    | true => rw [(heofi he).2] at hfr; exact Bool.noConfusion hfr
  have hidx : m.rs.index < m.rs.buffer.length := by
    rcases hroom hfr hsh with h0 | hlt
    · rw [hbuf]
      omega
    · rw [hbuf]
      exact hlt
  cases hc : m.chunks with
  | nil =>
    have hstep := maybeNext_read_eof linesCodec m hsh hfr hidx hc
    have hP' : ReadState.pending { m.rs with eof := true, is_framable := true }
        = m.rs.pending := rfl
    rw [hc] at hstream
    refine ⟨_, hstep, ⟨?_, ?_, ?_, ?_, ?_, ?_, ?_, ?_, ?_, ?_⟩, ?_⟩
    · simpa using hbuf
    · simpa using htci
    · simpa using hiL
    · show ReadState.pending _ ++ _ = _
      rw [hP']
      simpa using hstream
    · intro c hcm
      simp at hcm
    · simpa [hP'] using hseen
    · show 10 ∉ (ReadState.pending _).take m.codec
      rw [hP']
      exact hseen10
    · intro h
      exact Bool.noConfusion h
    · exact fun _ => ⟨rfl, rfl⟩
    · intro h
      exact Bool.noConfusion h
    · rw [linesMeasure, linesMeasure]
      simp only [hP']
      simp only [hc, hfr, hsh, heo, Bool.false_eq_true, eq_self_iff_true,
        if_true, if_false]
      omega
  | cons c rest =>
    have hcne : c ≠ [] := hchunks c (by rw [hc]; simp)
    have hclen : 0 < c.length := List.length_pos.mpr hcne
    have hstep := maybeNext_read_bytes linesCodec m hsh hfr hidx hc hcne
    by_cases hfit : c.length ≤ m.rs.buffer.length - m.rs.index
    · simp only [if_pos hfit] at hstep
      have hble : m.rs.index + c.length ≤ m.rs.buffer.length := by omega
      have hP' : ReadState.pending
          { m.rs with buffer := writeAt m.rs.buffer m.rs.index c
                      index := m.rs.index + c.length
                      is_framable := true } = m.rs.pending ++ c := by
        simp only [ReadState.pending]
        exact writeAt_pending htci hiB
      rw [hc] at hstream
      refine ⟨_, hstep, ⟨?_, ?_, ?_, ?_, ?_, ?_, ?_, ?_, ?_, ?_⟩, ?_⟩
      · simpa using (writeAt_length hble).trans hbuf
      · show m.rs.total_consumed ≤ m.rs.index + c.length
        omega
      · show m.rs.index + c.length ≤ L
        rw [← hbuf]
        omega
      · show ReadState.pending _ ++ _ = _
        rw [hP']
        rw [List.flatten_cons, ← List.append_assoc] at hstream
        exact hstream
      · intro d hd
        exact hchunks d (by rw [hc]; simp [hd])
      · show m.codec ≤ (ReadState.pending _).length
        rw [hP']
        simp
        omega
      · show 10 ∉ (ReadState.pending _).take m.codec
        rw [hP', hcodec, List.take_append_of_le_length (le_refl _),
          List.take_length]
        exact h10p
      · intro h
        exact Bool.noConfusion h
      · intro h
        exact Bool.noConfusion (heo.symm.trans h)
      · intro h
        exact Bool.noConfusion h
      · rw [linesMeasure, linesMeasure]
        simp only [hP']
        simp only [hc, hfr, hsh, heo, Bool.false_eq_true, eq_self_iff_true,
          if_true, if_false, List.flatten_cons, List.length_append]
        omega
    · simp only [if_neg hfit] at hstep
      have hsp : 0 < m.rs.buffer.length - m.rs.index := by omega
      have hbs : (c.take (m.rs.buffer.length - m.rs.index)).length
          = m.rs.buffer.length - m.rs.index := by
        rw [List.length_take]
        omega
      have hble : m.rs.index + (c.take (m.rs.buffer.length - m.rs.index)).length
          ≤ m.rs.buffer.length := by
        rw [hbs]
        omega
      have hP' : ReadState.pending
          { m.rs with buffer := writeAt m.rs.buffer m.rs.index
                        (c.take (m.rs.buffer.length - m.rs.index))
                      index := m.rs.index
                        + (c.take (m.rs.buffer.length - m.rs.index)).length
                      is_framable := true }
          = m.rs.pending ++ c.take (m.rs.buffer.length - m.rs.index) := by
        simp only [ReadState.pending]
        exact writeAt_pending htci hiB
      rw [hc] at hstream
      refine ⟨_, hstep, ⟨?_, ?_, ?_, ?_, ?_, ?_, ?_, ?_, ?_, ?_⟩, ?_⟩
      · simpa using (writeAt_length hble).trans hbuf
      · show m.rs.total_consumed ≤ m.rs.index + _
        omega
      · show m.rs.index + (c.take (m.rs.buffer.length - m.rs.index)).length ≤ L
        rw [hbs, ← hbuf]
        omega
      · show ReadState.pending _ ++ _ = _
        rw [hP', List.flatten_cons, List.append_assoc, ← List.append_assoc
          (c.take (m.rs.buffer.length - m.rs.index)), List.take_append_drop,
          ← List.append_assoc]
        rw [List.flatten_cons, ← List.append_assoc] at hstream
        exact hstream
      · intro d hd
        rcases List.mem_cons.mp hd with hd1 | hd2
        · rw [hd1]
          intro hnil
          have := congrArg List.length hnil
          rw [List.length_drop] at this
          simp at this
          omega
        · exact hchunks d (by rw [hc]; simp [hd2])
      · show m.codec ≤ (ReadState.pending _).length
        rw [hP']
        simp
        omega
      · show 10 ∉ (ReadState.pending _).take m.codec
        rw [hP', hcodec, List.take_append_of_le_length (le_refl _),
          List.take_length]
        exact h10p
      · intro h
        exact Bool.noConfusion h
      · intro h
        exact Bool.noConfusion (heo.symm.trans h)
      · intro h
        exact Bool.noConfusion h
      · rw [linesMeasure, linesMeasure]
        simp only [hP']
        simp only [hc, hfr, hsh, heo, Bool.false_eq_true, eq_self_iff_true,
          if_true, if_false, List.flatten_cons, List.length_append,
          List.length_take, List.length_drop]
        omega

theorem lines_run_aux (L : Nat) (residue : List Byte)
    (hres10 : 10 ∉ residue) (hreslen : residue.length < L) :
    ∀ N : Nat, ∀ (todo : List (List Byte)) (m : Machine Nat),
      linesMeasure m ≤ N →
      (∀ x ∈ todo, 10 ∉ x ∧ x.length + 2 ≤ L) →
      LinesInv L residue todo m →
      ∃ fuel, run linesCodec fuel m = expectedOut todo residue := by
  intro N
  induction N with
  | zero =>
    intro todo m hM hxs inv
    exfalso
    rw [linesMeasure] at hM
    by_cases he : m.rs.eof = true
    · rw [he, (inv.heof he).2] at hM
      rw [if_pos rfl] at hM
      omega
    · rw [Bool.not_eq_true] at he
      rw [he] at hM
      simp only [Bool.false_eq_true, if_false] at hM
      omega
  | succ N ih =>
    intro todo m hM hxs inv
    by_cases hsh : m.rs.shift = true
    · -- shift step: compact the buffer; pending, codec and chunks unchanged
      obtain ⟨hbuf, htci, hiL, hstream, hchunks, hseen, hseen10, hnoframe, heofi,
        hroom⟩ := inv
      have hiB : m.rs.index ≤ m.rs.buffer.length := by
        rw [hbuf]
        exact hiL
      have hstep := maybeNext_shift linesCodec m hsh
      have hP : (ReadState.pending
          { m.rs with buffer := copyWithin m.rs.buffer m.rs.total_consumed m.rs.index
                      index := m.rs.index - m.rs.total_consumed
                      total_consumed := 0
                      shift := false }) = m.rs.pending := by
        simp only [ReadState.pending]
        rw [List.drop_zero, Nat.sub_zero, copyWithin_pending htci hiB]
      obtain ⟨fuel, hrun⟩ := ih todo
        { m with rs :=
          { m.rs with buffer := copyWithin m.rs.buffer m.rs.total_consumed m.rs.index
                      index := m.rs.index - m.rs.total_consumed
                      total_consumed := 0
                      shift := false } }
        (by
          rw [linesMeasure] at hM ⊢
          simp only [hP]
          simp only [hsh, Bool.false_eq_true, eq_self_iff_true, if_true,
            if_false] at hM ⊢
          omega)
        hxs
        ⟨by simpa using copyWithin_length htci hiB |>.trans hbuf,
         by simp,
         by simp; omega,
         by simpa [hP] using hstream,
         hchunks,
         by simpa [hP] using hseen,
         by simpa [hP] using hseen10,
         by simpa [hP] using hnoframe,
         heofi,
         fun _ _ => Or.inl rfl⟩
      exact ⟨fuel + 1, by rw [run_succ_progress linesCodec fuel hstep, hrun]⟩
    · rw [Bool.not_eq_true] at hsh
      by_cases hfr : m.rs.is_framable = true
      · by_cases heo : m.rs.eof = true
        · -- at EOF with the decoder runnable: frame, error or terminate
          have hch0 := (inv.heof heo).1
          cases todo with
          | cons x todo' =>
            have heq : m.rs.pending ++ m.chunks.flatten
                = x ++ 13 :: 10 :: ((todo'.map encLine).flatten ++ residue) := by
              rw [inv.hstream]
              simp [encLine]
            rw [hch0] at heq
            simp at heq
            have hlong : x.length + 2 ≤ m.rs.pending.length := by
              rw [heq]
              simp
            obtain ⟨m', hstep, inv', hdrop⟩ :=
              lines_next_frame inv (hxs x (by simp)).1 hsh hfr hlong
            obtain ⟨fuel, hrun⟩ := ih todo' m' (by omega)
              (fun y hy => hxs y (by simp [hy])) inv'
            exact ⟨fuel + 1, by
              rw [run_succ_frame linesCodec fuel hstep, hrun, expectedOut_cons]⟩
          | nil =>
            have hpres : m.rs.pending = residue := by
              have h := inv.hstream
              rw [hch0] at h
              simpa using h
            have hdl : linesDecodeLoop m.rs.pending m.codec
                = (m.rs.pending.length, none) :=
              linesDecode_no10 (by rw [hpres]; exact hres10) inv.hseen
            have hstep := maybeNext_eof_none linesCodec m hsh hfr heo
              ((by simp only [linesCodec]; rw [hdl]) :
                linesCodec.decodeEof m.codec m.rs.pending
                  = (m.rs.pending.length, m.rs.pending, .ok none))
            have hplen : m.rs.pending.length = m.rs.index - m.rs.total_consumed :=
              pending_length inv.htci (by rw [inv.hbuf]; exact inv.hiL)
            have htci := inv.htci
            by_cases hit : m.rs.index = m.rs.total_consumed
            · rw [if_neg (by omega)] at hstep
              refine ⟨1, ?_⟩
              rw [run_succ_terminal linesCodec 0 hstep]
              have hre : residue = [] := by
                rw [← hpres]
                exact List.eq_nil_of_length_eq_zero (by omega)
              rw [hre]
              rfl
            · rw [if_pos hit] at hstep
              refine ⟨1, ?_⟩
              rw [run_succ_fail linesCodec 0 hstep]
              have hrne : residue ≠ [] := by
                rw [← hpres]
                intro h0
                apply hit
                have hl0 : m.rs.pending.length = 0 := by rw [h0]; rfl
                omega
              rw [expectedOut, if_neg (by simpa using hrne)]
        · rw [Bool.not_eq_true] at heo
          cases todo with
          | cons x todo' =>
            by_cases hlong : x.length + 2 ≤ m.rs.pending.length
            · obtain ⟨m', hstep, inv', hdrop⟩ :=
                lines_next_frame inv (hxs x (by simp)).1 hsh hfr hlong
              obtain ⟨fuel, hrun⟩ := ih todo' m' (by omega)
                (fun y hy => hxs y (by simp [hy])) inv'
              exact ⟨fuel + 1, by
                rw [run_succ_frame linesCodec fuel hstep, hrun, expectedOut_cons]⟩
            · have heq : m.rs.pending ++ m.chunks.flatten
                  = x ++ 13 :: 10 :: ((todo'.map encLine).flatten ++ residue) := by
                rw [inv.hstream]
                simp [encLine]
              have h10p := no10_of_short_pfx (hxs x (by simp)).1 heq (by omega)
              obtain ⟨m', hstep, inv', hdrop⟩ :=
                lines_next_none inv h10p hsh hfr heo
              obtain ⟨fuel, hrun⟩ := ih (x :: todo') m' (by omega) hxs inv'
              exact ⟨fuel + 1, by
                rw [run_succ_progress linesCodec fuel hstep, hrun]⟩
          | nil =>
            have h10p : 10 ∉ m.rs.pending := by
              intro hmem
              apply hres10
              have h : m.rs.pending ++ m.chunks.flatten = residue := by
                simpa using inv.hstream
              rw [← h]
              exact List.mem_append_left _ hmem
            obtain ⟨m', hstep, inv', hdrop⟩ := lines_next_none inv h10p hsh hfr heo
            obtain ⟨fuel, hrun⟩ := ih [] m' (by omega) hxs inv'
            exact ⟨fuel + 1, by rw [run_succ_progress linesCodec fuel hstep, hrun]⟩
      · rw [Bool.not_eq_true] at hfr
        obtain ⟨m', hstep, inv', hdrop⟩ :=
          lines_next_read inv hxs hres10 hreslen hsh hfr
        obtain ⟨fuel, hrun⟩ := ih todo m' (by omega) hxs inv'
        exact ⟨fuel + 1, by rw [run_succ_progress linesCodec fuel hstep, hrun]⟩

/-- C1: the claim quantifies over every built-in codec, and the `Bytes`
codec refutes it: deliver `encode([1]) ++ encode([2]) = [1, 2]` in one read
into a 4-byte buffer and the driver's first frame is the whole chunk
`[1, 2]`, not `[1]`; moreover `Bytes::decode` also frames the empty slice,
so the session keeps yielding empty frames and never reaches the terminal
`None` outcome (fuel 8 still answers `more`). -/
theorem framing_completeness_cex :
    (bytesEncode [1] (List.replicate 4 0) = .ok ([1, 0, 0, 0], 1)
      ∧ bytesEncode [2] [0, 0, 0] = .ok ([2, 0, 0], 1))
    ∧ (maybeNext bytesCodec ((maybeNext bytesCodec
        { codec := (), rs := ReadState.new (List.replicate 4 0),
          chunks := [[1, 2]] }).1)).2 = StepRes.frame [1, 2]
    ∧ run bytesCodec 8
        { codec := (), rs := ReadState.new (List.replicate 4 0),
          chunks := [[1, 2]] } = RunOut.more := by
  refine ⟨⟨rfl, rfl⟩, ?_, ?_⟩ <;> decide

/-- C1 (amended): framing completeness holds for the `Lines` codec. If the
transport delivers, split into arbitrary nonempty chunks, the concatenation
of the encodings of items `xs` (each newline-free and fitting the read
buffer with its `\r\n` terminator) followed by a partial-encoding residue
(newline-free, shorter than the buffer), then some number of driver steps
yields exactly the frames `xs` in order and then the terminal `None`
outcome when the residue is empty, and `Err(BytesRemainingOnStream)` after
the frames when it is not. -/
theorem framing_completeness (L : Nat) (xs : List (List Byte))
    (residue : List Byte) (chunks : List (List Byte))
    (hxs : ∀ x ∈ xs, 10 ∉ x ∧ x.length + 2 ≤ L)
    (hres10 : 10 ∉ residue) (hreslen : residue.length < L)
    (hch : ∀ c ∈ chunks, c ≠ [])
    (hflat : chunks.flatten = (xs.map encLine).flatten ++ residue) :
    ∃ fuel, run linesCodec fuel
      { codec := 0, rs := ReadState.new (List.replicate L 0), chunks := chunks }
      = expectedOut xs residue := by
  apply lines_run_aux L residue hres10 hreslen (linesMeasure
    { codec := 0, rs := ReadState.new (List.replicate L 0), chunks := chunks })
    xs _ (le_refl _) hxs
  refine ⟨?_, ?_, ?_, ?_, hch, ?_, ?_, ?_, ?_, ?_⟩
  · simp [ReadState.new]
  · simp [ReadState.new]
  · simp [ReadState.new]
  · simp [ReadState.new, ReadState.pending, hflat]
  · simp [ReadState.new]
  · simp [ReadState.new, ReadState.pending]
  · exact fun _ => ⟨rfl, by simp [ReadState.new, ReadState.pending]⟩
  · exact fun h => Bool.noConfusion h
  · exact fun _ _ => Or.inl rfl

theorem framing_completeness_witness :
    (∀ x ∈ [[72, 101, 108, 108, 111]], (10 : Byte) ∉ x ∧ x.length + 2 ≤ 16)
    ∧ ∃ fuel, run linesCodec fuel
        { codec := 0, rs := ReadState.new (List.replicate 16 0),
          chunks := [[72, 101], [108, 108, 111, 13, 10]] }
        = expectedOut [[72, 101, 108, 108, 111]] [] :=
  ⟨by decide, framing_completeness 16 [[72, 101, 108, 108, 111]] []
    [[72, 101], [108, 108, 111, 13, 10]] (by decide) (by decide) (by decide)
    (by decide) (by decide)⟩

end Framez
